import Mathlib

/-!
Verification of the duplicate-finder engine: a shallow embedding of the
scanner (`scanner.py`), hasher (`hasher.py`), analyzer (`analyzer.py`),
data model (`models.py`) and background task runner
(`utils/threading_utils.py`), together with proofs of the behavioural
claims about them.

Modelling conventions:
* File contents and the filesystem are abstracted by oracles:
  `content : String → Option String` models `compute_sha256` (it returns
  `none` exactly when opening/reading the file raises
  `PermissionError`/`OSError`, and the hex digest otherwise), and
  `statFn : String → Option StatInfo` models `Path.stat` the same way.
* Cooperative cancellation polls a flag which, once set, stays set, and
  loops `break` on the first `true` anyway; hence the prefix of records a
  loop processes before stopping is captured by a `budget : Nat`
  parameter (number of iterations before the predicate first returned
  `true`; a budget `≥` the list length models "never cancelled").  The
  separate check `if cancelled and cancelled()` after hashing in
  `find_duplicates` is the Boolean parameter `cancelledAfterHash`.
* CPython dicts preserve key insertion order, so `defaultdict(list)`
  grouping is modelled by `groupKeyed`, the insertion-ordered group-by:
  keys appear in order of first occurrence and each group lists its
  members in input order.
* Record mutation by `hash_candidates` (`record.sha256 = ...`) is made
  explicit by tagging each input record with its position (`List.enum`):
  object identity in Python corresponds to the numeric tag here.
-/

namespace DupFinder

/-- Model of `models.FileRecord`: `path`, `directory_root` and timestamps
are abstract scalars; `sha256` is `none` until hashed (`Optional[str]`). -/
structure FileRecord where
  path : String
  directory_root : String
  relative_path : String
  filename : String
  size : Nat
  modified : Int
  sha256 : Option String := none
deriving DecidableEq, Repr

/-- Model of `models.MatchType`. -/
inductive MatchType where
  | BINARY_DUPLICATE
  | DIVERGED
deriving DecidableEq, Repr

/-- Model of `models.DuplicateGroup` (the data part; the derived
properties are separate functions below). -/
structure DuplicateGroup where
  match_type : MatchType
  files : List FileRecord
  shared_name : String
  hash_value : Option String := none
deriving DecidableEq, Repr

/-- Python truthiness of the optional digest: `if f.sha256:` is true iff
the digest is present and a non-empty string. -/
def truthy : Option String → Bool
  | none => false
  | some s => s != ""

/-- `DuplicateGroup.wasted_bytes` (`models.py` lines 37-41):
`files[0].size * (len(files) - 1)` for a non-empty BINARY_DUPLICATE
group, `0` otherwise. -/
def wasted_bytes (g : DuplicateGroup) : Nat :=
  match g.match_type, g.files with
  | MatchType.BINARY_DUPLICATE, f :: fs => f.size * fs.length
  | _, _ => 0

/-- CPython `max(l, key=k)` starting from a current best: the running
best is replaced only when a later element is strictly greater, so the
first maximal element wins. -/
def pyMaxBy (key : FileRecord → Int) (best : FileRecord) : List FileRecord → FileRecord
  | [] => best
  | f :: fs => pyMaxBy key (if key best < key f then f else best) fs

/-- CPython `min(l, key=k)` starting from a current best: the running
best is replaced only when a later element is strictly smaller, so the
first minimal element wins. -/
def pyMinBy (key : FileRecord → Int) (best : FileRecord) : List FileRecord → FileRecord
  | [] => best
  | f :: fs => pyMinBy key (if key f < key best then f else best) fs

/-- `DuplicateGroup.newest_file` (`models.py` lines 43-47):
`max(self.files, key=lambda f: f.modified)`, `None` on an empty group. -/
def newest_file (g : DuplicateGroup) : Option FileRecord :=
  match g.files with
  | [] => none
  | f :: fs => some (pyMaxBy (fun r => r.modified) f fs)

/-- `DuplicateGroup.oldest_file` (`models.py` lines 49-53):
`min(self.files, key=lambda f: f.modified)`, `None` on an empty group. -/
def oldest_file (g : DuplicateGroup) : Option FileRecord :=
  match g.files with
  | [] => none
  | f :: fs => some (pyMinBy (fun r => r.modified) f fs)

/-- Insertion-ordered group-by, modelling a CPython
`defaultdict(list)` filled by `d[key(x)].append(x)` and then iterated
with `.items()`: keys in order of first occurrence, each group holding
its members in input order. -/
def groupKeyed {α : Type} (key : α → String) : List α → List (String × List α)
  | [] => []
  | x :: xs =>
    (key x, x :: xs.filter (fun y => key y == key x)) ::
      groupKeyed key (xs.filter (fun y => key y != key x))
termination_by l => l.length
decreasing_by
  simpa using Nat.lt_succ_of_le (List.length_filter_le _ xs)

/-- A record tagged with its position in the analyzer's input list;
the tag stands for Python object identity. -/
abbrev IRec := Nat × FileRecord

/-- ASCII case folding of one character, modelling Python `str.lower()`
(restricted to ASCII; filenames outside ASCII fold to themselves in this
model). Written as an explicit table so it evaluates inside the kernel. -/
def lowerChar : Char → Char
  | 'A' => 'a' | 'B' => 'b' | 'C' => 'c' | 'D' => 'd' | 'E' => 'e' | 'F' => 'f'
  | 'G' => 'g' | 'H' => 'h' | 'I' => 'i' | 'J' => 'j' | 'K' => 'k' | 'L' => 'l'
  | 'M' => 'm' | 'N' => 'n' | 'O' => 'o' | 'P' => 'p' | 'Q' => 'q' | 'R' => 'r'
  | 'S' => 's' | 'T' => 't' | 'U' => 'u' | 'V' => 'v' | 'W' => 'w' | 'X' => 'x'
  | 'Y' => 'y' | 'Z' => 'z'
  | c => c

/-- Model of Python `str.lower()` (ASCII case folding). -/
def pyLower (s : String) : String := String.mk (s.data.map lowerChar)

/-- The grouping key of pass 1: `f.filename.lower()`. -/
def nameKey (p : IRec) : String := pyLower p.2.filename

/-- `len({f.directory_root for f in g})` — the number of distinct
directory roots among tagged records. -/
def irootsCount (g : List IRec) : Nat := ((g.map (fun p => p.2.directory_root)).dedup).length

/-- `len({f.directory_root for f in g})` — the number of distinct
directory roots among plain records. -/
def rootsCount (g : List FileRecord) : Nat := ((g.map (fun r => r.directory_root)).dedup).length

/-- Pass 1 of `find_duplicates` (`analyzer.py` lines 24-26): group all
input records by lowercased filename. -/
def by_name (files : List FileRecord) : List (String × List IRec) :=
  groupKeyed nameKey files.enum

/-- The cross-root filter (`analyzer.py` lines 29-33): keep only
name-groups spanning at least two directory roots. -/
def candidates (files : List FileRecord) : List (String × List IRec) :=
  (by_name files).filter (fun p => 2 ≤ irootsCount p.2)

/-- `files_to_hash` (`analyzer.py` lines 36-38): the concatenation of
all surviving name-groups, in group order. -/
def files_to_hash (files : List FileRecord) : List IRec :=
  ((candidates files).map (fun p => p.2)).flatten

/-- Tags of the records actually hashed: `hash_candidates` processes
`files_to_hash` in order and stops at the first `true` of the
cancellation predicate, i.e. after `budget` records. -/
def hashedIdx (budget : Nat) (files : List FileRecord) : List Nat :=
  ((files_to_hash files).take budget).map (fun p => p.1)

/-- The effect of `record.sha256 = compute_sha256(record.path)`
(`hasher.py` line 45) on one record. -/
def hashRec (content : String → Option String) (r : FileRecord) : FileRecord :=
  { r with sha256 := content r.path }

/-- The effect of the hashing loop on one tagged record: mutated iff its
tag (object identity) is among the hashed ones. -/
def applyHash (content : String → Option String) (hIdx : List Nat) (p : IRec) : IRec :=
  if p.1 ∈ hIdx then (p.1, hashRec content p.2) else p

/-- The surviving name-groups as the classification pass sees them,
i.e. after `hash_candidates(files_to_hash, ...)` mutated the shared
records in place. -/
def hashCandGroups (content : String → Option String) (budget : Nat)
    (files : List FileRecord) : List (String × List IRec) :=
  (candidates files).map (fun p => (p.1, p.2.map (applyHash content (hashedIdx budget files))))

/-- The grouping key of pass 2: the digest (only applied to records
whose digest is truthy, so the `getD` default is never exercised). -/
def digestKey (p : IRec) : String := p.2.sha256.getD ""

/-- `by_hash` for one name-group (`analyzer.py` lines 51-54): sub-group
by digest, skipping records with falsy (`None` or empty) digest. -/
def by_hash (g : List IRec) : List (String × List IRec) :=
  groupKeyed digestKey (g.filter (fun p => truthy p.2.sha256))

/-- The BINARY_DUPLICATE groups emitted for one name-group
(`analyzer.py` lines 57-67): one per digest sub-group spanning at least
two directory roots. -/
def binaryGroupsFor (name : String) (g : List IRec) : List DuplicateGroup :=
  (by_hash g).filterMap (fun q =>
    if 2 ≤ irootsCount q.2 then
      some ⟨MatchType.BINARY_DUPLICATE, q.2.map (fun p => p.2), name, some q.1⟩
    else none)

/-- `all_hashes = {f.sha256 for f in files if f.sha256}`
(`analyzer.py` line 70): the distinct truthy digests of a name-group. -/
def distinctDigests (g : List IRec) : List String :=
  ((g.filter (fun p => truthy p.2.sha256)).map (fun p => p.2.sha256.getD "")).dedup

/-- The DIVERGED group emitted for one name-group (`analyzer.py` lines
69-79): all members, iff more than one distinct truthy digest exists. -/
def divergedFor (name : String) (g : List IRec) : Option DuplicateGroup :=
  if 2 ≤ (distinctDigests g).length then
    some ⟨MatchType.DIVERGED, g.map (fun p => p.2), name, none⟩
  else none

/-- `analyzer.find_duplicates`: pass 1 grouping and pruning, in-place
hashing of the survivors, the post-hash cancellation check (lines
43-44), then classification. -/
def find_duplicates (content : String → Option String) (budget : Nat)
    (cancelledAfterHash : Bool) (all_files : List FileRecord) :
    List DuplicateGroup × List DuplicateGroup :=
  if cancelledAfterHash then ([], [])
  else
    ((hashCandGroups content budget all_files).flatMap
        (fun p => binaryGroupsFor p.1 p.2),
     (hashCandGroups content budget all_files).filterMap
        (fun p => divergedFor p.1 p.2))

/-- The state of the analyzer's input records after `find_duplicates`
returns: `hash_candidates` overwrote the digest of exactly the records
it processed, and nothing else (`hasher.py` lines 42-45). -/
def finalRecords (content : String → Option String) (budget : Nat)
    (files : List FileRecord) : List FileRecord :=
  files.enum.map (fun p => (applyHash content (hashedIdx budget files) p).2)

/-- Explicit description of the member list of a BINARY_DUPLICATE group:
the records of the name-group `n` (in input order), after hashing, that
carry the truthy digest `d`. Used to state that each emitted group
contains exactly the members of one digest sub-group. -/
def binFiles (content : String → Option String) (files : List FileRecord)
    (n d : String) : List FileRecord :=
  (((files.filter (fun r => pyLower r.filename == n)).map (hashRec content)).filter
      (fun r => truthy r.sha256)).filter (fun r => r.sha256.getD "" == d)

/-- Explicit description of the member list of a DIVERGED group: all the
records of the name-group `n`, in input order, after hashing. -/
def divFiles (content : String → Option String) (files : List FileRecord)
    (n : String) : List FileRecord :=
  (files.filter (fun r => pyLower r.filename == n)).map (hashRec content)

/-- `hasher.hash_candidates` as a standalone list transformer: records
are processed in order, each getting `sha256 = compute_sha256(path)`,
until the cancellation predicate first returns true (after `budget`
records). -/
def hash_candidates (content : String → Option String) : Nat → List FileRecord → List FileRecord
  | _, [] => []
  | 0, rs => rs
  | b + 1, r :: rs => hashRec content r :: hash_candidates content b rs

/-- Result of `os.stat` on one file. -/
structure StatInfo where
  size : Nat
  mtime : Int
deriving DecidableEq, Repr

/-- `Path(dirpath) / filename`. -/
def joinPath (dir name : String) : String := dir ++ "/" ++ name

/-- `str(full_path.relative_to(root))` for a path of the form
`root ++ "/" ++ rest`. -/
def relTo (root path : String) : String := path.drop (root.length + 1)

/-- `scanner.scan_directory`: walk the directory listing (each entry a
`(dirpath, filenames)` pair as produced by `os.walk`), polling the
cancellation predicate once per directory (`dirBudget` directories are
processed before it first returns true), and collect a record per file
that `stat`s successfully; a file whose `stat` raises
(`statFn` returns `none`) is skipped. -/
def scan_directory (statFn : String → Option StatInfo) (root : String)
    (walk : List (String × List String)) (dirBudget : Nat) : List FileRecord :=
  (walk.take dirBudget).flatMap (fun d =>
    d.2.filterMap (fun fn =>
      match statFn (joinPath d.1 fn) with
      | some st =>
          some { path := joinPath d.1 fn
                 directory_root := root
                 relative_path := relTo root (joinPath d.1 fn)
                 filename := fn
                 size := st.size
                 modified := st.mtime
                 sha256 := none }
      | none => none))

/-- The terminal signal a `BackgroundTask` run posts to the initiating
context via `root.after`. -/
inductive Signal (R E : Type) where
  | complete (r : R)
  | error (e : E)
  | noSignal
deriving DecidableEq, Repr

/-- Observable outcome of `BackgroundTask._run`
(`utils/threading_utils.py` lines 43-52): the `_finished` flag and the
single terminal signal (if any). -/
structure TaskState (R E : Type) where
  finished : Bool
  signal : Signal R E
deriving DecidableEq, Repr

/-- Model of `BackgroundTask._run`: `outcome` is what `task_fn` did
(returned normally or raised), `cancelledFlag` is the value of
`self._cancelled` when line 47 reads it, and `hasComplete`/`hasError`
say whether the optional callbacks were supplied. -/
def backgroundRun {R E : Type} (outcome : Except E R) (cancelledFlag : Bool)
    (hasComplete hasError : Bool) : TaskState R E :=
  match outcome with
  | Except.ok r =>
      { finished := true
        signal := if !cancelledFlag && hasComplete then Signal.complete r else Signal.noSignal }
  | Except.error e =>
      { finished := true
        signal := if hasError then Signal.error e else Signal.noSignal }

/-! ### Sample data for witnesses -/

/-- Sample record under root `A` (mixed-case filename). -/
def sampleA : FileRecord := ⟨"A/doc.txt", "A", "doc.txt", "Doc.TXT", 4, 0, none⟩

/-- Sample record under root `B`. -/
def sampleB : FileRecord := ⟨"B/doc.txt", "B", "doc.txt", "doc.txt", 4, 5, none⟩

/-- Sample record under root `C` (same filename, different content). -/
def sampleC : FileRecord := ⟨"C/doc.txt", "C", "doc.txt", "doc.txt", 6, 2, none⟩

/-- Sample content oracle: the file under `C` has different bytes. -/
def sampleContent : String → Option String :=
  fun p => if p = "C/doc.txt" then some "h2" else some "h1"

/-- Sample record whose filename occurs only under root `A`. -/
def sampleE : FileRecord := ⟨"A/notes.txt", "A", "notes.txt", "notes.txt", 3, 1, none⟩

/-- The digest-erased view of a record: two record lists that agree
under `eraseSha` differ at most in their `sha256` fields. -/
def eraseSha (r : FileRecord) : FileRecord := { r with sha256 := none }

/-! ### Generic lemmas about insertion-ordered grouping -/

theorem groupKeyed_nil {α : Type} (key : α → String) : groupKeyed key ([] : List α) = [] := by
  simp [groupKeyed]

theorem groupKeyed_cons {α : Type} (key : α → String) (x : α) (xs : List α) :
    groupKeyed key (x :: xs) =
      (key x, x :: xs.filter (fun y => key y == key x)) ::
        groupKeyed key (xs.filter (fun y => key y != key x)) := by
  rw [groupKeyed]

theorem exists_src_of_mem_groupKeyed {α : Type} {key : α → String} {xs : List α}
    {k : String} {g : List α} (h : (k, g) ∈ groupKeyed key xs) :
    ∃ a ∈ xs, key a = k := by
  match xs with
  | [] => rw [groupKeyed_nil] at h; exact absurd h (List.not_mem_nil _)
  | x :: xs =>
    rw [groupKeyed_cons] at h
    rcases List.mem_cons.mp h with h | h
    · exact ⟨x, List.mem_cons_self _ _, (Prod.mk.injEq _ _ _ _ ▸ h).1.symm⟩
    · obtain ⟨a, ha, hk⟩ := exists_src_of_mem_groupKeyed h
      exact ⟨a, List.mem_cons_of_mem _ (List.mem_of_mem_filter ha), hk⟩
termination_by xs.length
decreasing_by
  simpa using Nat.lt_succ_of_le (List.length_filter_le _ xs)

theorem filter_key_absorb {α : Type} (key : α → String) (x : α) (xs : List α) (k : String)
    (hk : k ≠ key x) :
    (xs.filter (fun y => key y != key x)).filter (fun a => key a == k) =
      (x :: xs).filter (fun a => key a == k) := by
  rw [List.filter_cons]
  have hx : (key x == k) = false := by
    exact beq_eq_false_iff_ne.mpr (fun h => hk h.symm)
  rw [if_neg (by simp [hx])]
  rw [List.filter_filter]
  refine List.filter_congr ?_
  intro a _
  by_cases h : key a = k
  · have h1 : (key a == k) = true := beq_iff_eq.mpr h
    have h2 : (key a != key x) = true := by
      simp only [bne_iff_ne, ne_eq]
      intro he
      exact hk (by rw [← h, he])
    simp [h1, h2]
  · have h1 : (key a == k) = false := beq_eq_false_iff_ne.mpr h
    simp [h1]

theorem group_eq_filter_of_mem_groupKeyed {α : Type} {key : α → String} {xs : List α}
    {k : String} {g : List α} (h : (k, g) ∈ groupKeyed key xs) :
    g = xs.filter (fun a => key a == k) := by
  match xs with
  | [] => rw [groupKeyed_nil] at h; exact absurd h (List.not_mem_nil _)
  | x :: xs =>
    rw [groupKeyed_cons] at h
    rcases List.mem_cons.mp h with h | h
    · obtain ⟨hk, hg⟩ := Prod.mk.injEq _ _ _ _ ▸ h
      subst hk
      rw [hg, List.filter_cons, if_pos (by simp)]
    · obtain ⟨a, ha, hak⟩ := exists_src_of_mem_groupKeyed h
      have hkx : k ≠ key x := by
        have := (List.mem_filter.mp ha).2
        rw [bne_iff_ne] at this
        rw [← hak]; exact fun he => this (by rw [he])
      have := group_eq_filter_of_mem_groupKeyed h
      rw [this, filter_key_absorb key x xs k hkx]
termination_by xs.length
decreasing_by
  simpa using Nat.lt_succ_of_le (List.length_filter_le _ xs)

theorem mem_groupKeyed_of_mem {α : Type} {key : α → String} {xs : List α} {a : α}
    (h : a ∈ xs) :
    (key a, xs.filter (fun y => key y == key a)) ∈ groupKeyed key xs := by
  match xs with
  | [] => exact absurd h (List.not_mem_nil _)
  | x :: xs =>
    rw [groupKeyed_cons]
    by_cases hk : key a = key x
    · have : (x :: xs).filter (fun y => key y == key a) =
          x :: xs.filter (fun y => key y == key x) := by
        rw [List.filter_cons, if_pos (by simp [hk]), hk]
      rw [this, hk]
      exact List.mem_cons_self _ _
    · rcases List.mem_cons.mp h with rfl | h
      · exact absurd rfl hk
      · have ha : a ∈ xs.filter (fun y => key y != key x) := by
          refine List.mem_filter.mpr ⟨h, ?_⟩
          rw [bne_iff_ne]; exact hk
        have := @mem_groupKeyed_of_mem _ key _ _ ha
        rw [filter_key_absorb key x xs (key a) hk] at this
        exact List.mem_cons_of_mem _ this
termination_by xs.length
decreasing_by
  simpa using Nat.lt_succ_of_le (List.length_filter_le _ xs)

theorem groupKeyed_keys_nodup {α : Type} (key : α → String) (xs : List α) :
    ((groupKeyed key xs).map Prod.fst).Nodup := by
  match xs with
  | [] => simp [groupKeyed_nil]
  | x :: xs =>
    rw [groupKeyed_cons]
    rw [List.map_cons]
    refine List.nodup_cons.mpr ⟨?_, groupKeyed_keys_nodup key (xs.filter (fun y => key y != key x))⟩
    intro hmem
    obtain ⟨⟨k, g⟩, hkg, hfst⟩ := List.mem_map.mp hmem
    obtain ⟨a, ha, hak⟩ := exists_src_of_mem_groupKeyed hkg
    have := (List.mem_filter.mp ha).2
    rw [bne_iff_ne] at this
    exact this (by rw [hak]; exact hfst)
termination_by xs.length
decreasing_by
  simpa using Nat.lt_succ_of_le (List.length_filter_le _ xs)

theorem key_of_mem_group {α : Type} {key : α → String} {xs : List α}
    {k : String} {g : List α} (h : (k, g) ∈ groupKeyed key xs) {a : α} (ha : a ∈ g) :
    a ∈ xs ∧ key a = k := by
  rw [group_eq_filter_of_mem_groupKeyed h] at ha
  obtain ⟨hmem, hk⟩ := List.mem_filter.mp ha
  exact ⟨hmem, beq_iff_eq.mp hk⟩

/-! ### Lemmas about `List.enum` and friends -/

theorem mem_enumFrom_iff_shift {α : Type} (l : List α) (n i : Nat) (a : α) :
    (i, a) ∈ l.enumFrom n ↔ ∃ j, i = n + j ∧ l.get? j = some a := by
  induction l generalizing n with
  | nil => simp [List.enumFrom]
  | cons x t ih =>
    rw [List.enumFrom_cons]
    constructor
    · intro h
      rcases List.mem_cons.mp h with h | h
      · obtain ⟨h1, h2⟩ := Prod.mk.injEq _ _ _ _ ▸ h
        exact ⟨0, by omega, by simp [h2]⟩
      · obtain ⟨j, hj, hg⟩ := (ih (n + 1)).mp h
        exact ⟨j + 1, by omega, by simpa using hg⟩
    · rintro ⟨j, rfl, hg⟩
      cases j with
      | zero =>
        have ha : x = a := by simpa using hg
        subst ha
        simp
      | succ j =>
        refine List.mem_cons_of_mem _ ((ih (n + 1)).mpr ⟨j, by omega, by simpa using hg⟩)

theorem mem_enum_iff_get? {α : Type} (l : List α) (i : Nat) (a : α) :
    (i, a) ∈ l.enum ↔ l.get? i = some a := by
  rw [List.enum, mem_enumFrom_iff_shift]
  constructor
  · rintro ⟨j, rfl, hg⟩; simpa using hg
  · intro h; exact ⟨i, by omega, h⟩

theorem exists_enum_of_mem {α : Type} {l : List α} {a : α} (h : a ∈ l) :
    ∃ i, (i, a) ∈ l.enum := by
  obtain ⟨i, hi⟩ := List.mem_iff_get?.mp h
  exact ⟨i, (mem_enum_iff_get? l i a).mpr hi⟩

theorem enumFrom_filter_map_snd {α : Type} (q : α → Bool) (l : List α) (n : Nat) :
    ((l.enumFrom n).filter (fun p => q p.2)).map (fun p => p.2) = l.filter q := by
  induction l generalizing n with
  | nil => simp [List.enumFrom]
  | cons x t ih =>
    rw [List.enumFrom_cons, List.filter_cons, List.filter_cons]
    by_cases hq : q x = true
    · rw [if_pos (by simpa using hq), if_pos hq, List.map_cons, ih (n + 1)]
    · rw [if_neg (by simpa using hq), if_neg hq, ih (n + 1)]

theorem enum_filter_map_snd {α : Type} (q : α → Bool) (l : List α) :
    (l.enum.filter (fun p => q p.2)).map (fun p => p.2) = l.filter q :=
  enumFrom_filter_map_snd q l 0

theorem enumFrom_map_pair {α β : Type} (f : α → β) (l : List α) (n : Nat) :
    (l.enumFrom n).map (fun p => (p.1, f p.2)) = (l.map f).enumFrom n := by
  induction l generalizing n with
  | nil => simp [List.enumFrom]
  | cons x t ih =>
    rw [List.map_cons, List.enumFrom_cons, List.enumFrom_cons, List.map_cons, ih (n + 1)]

theorem enum_map_pair {α β : Type} (f : α → β) (l : List α) :
    l.enum.map (fun p => (p.1, f p.2)) = (l.map f).enum :=
  enumFrom_map_pair f l 0

theorem enumFrom_nodup_fst {α : Type} (l : List α) (n : Nat) :
    ((l.enumFrom n).map Prod.fst).Nodup := by
  induction l generalizing n with
  | nil => simp [List.enumFrom]
  | cons x t ih =>
    rw [List.enumFrom_cons, List.map_cons]
    refine List.nodup_cons.mpr ⟨?_, ih (n + 1)⟩
    intro hmem
    obtain ⟨⟨i, a⟩, hia, hfst⟩ := List.mem_map.mp hmem
    obtain ⟨j, hj, _⟩ := (mem_enumFrom_iff_shift t (n + 1) i a).mp hia
    simp only at hfst
    omega

/-! ### Small counting and `dedup` lemmas -/

theorem two_le_dedup_length {α : Type} [DecidableEq α] {l : List α} {a b : α}
    (ha : a ∈ l) (hb : b ∈ l) (hab : a ≠ b) : 2 ≤ l.dedup.length := by
  have ha' : a ∈ l.dedup := List.mem_dedup.mpr ha
  have hb' : b ∈ l.dedup := List.mem_dedup.mpr hb
  match h : l.dedup with
  | [] => rw [h] at ha'; exact absurd ha' (List.not_mem_nil _)
  | [c] =>
    rw [h] at ha' hb'
    exact absurd (by rw [List.mem_singleton.mp ha', List.mem_singleton.mp hb'] : a = b) hab
  | c :: d :: t =>
    rw [List.length_cons, List.length_cons]
    omega

theorem countP_filterMap_getD {α β : Type} (f : α → Option β) (p : β → Bool) (l : List α) :
    (l.filterMap f).countP p = l.countP (fun a => ((f a).map p).getD false) := by
  induction l with
  | nil => simp
  | cons x t ih =>
    rw [List.filterMap_cons]
    cases h : f x with
    | none => rw [List.countP_cons, ih, h]; simp
    | some b => rw [List.countP_cons, List.countP_cons, ih, h]; simp

theorem countP_eq_one_of_keys {β : Type} (l : List (String × β)) (p : String × β → Bool)
    (k : String) (hnd : (l.map Prod.fst).Nodup)
    (himp : ∀ q ∈ l, p q = true → q.1 = k)
    (hex : ∃ q ∈ l, q.1 = k ∧ p q = true) : l.countP p = 1 := by
  induction l with
  | nil => obtain ⟨q, hq, _⟩ := hex; exact absurd hq (List.not_mem_nil _)
  | cons q t ih =>
    rw [List.map_cons, List.nodup_cons] at hnd
    rw [List.countP_cons]
    by_cases hp : p q = true
    · have hk : q.1 = k := himp q (List.mem_cons_self _ _) hp
      have ht : t.countP p = 0 := by
        rw [List.countP_eq_zero]
        intro q' hq' hp'
        have : q'.1 = k := himp q' (List.mem_cons_of_mem _ hq') hp'
        exact hnd.1 (List.mem_map.mpr ⟨q', hq', by rw [this, hk]⟩)
      rw [ht, if_pos hp]
    · rw [if_neg hp]
      simp only [Nat.add_zero]
      obtain ⟨q', hq', hk', hp'⟩ := hex
      rcases List.mem_cons.mp hq' with rfl | hq'
      · exact absurd hp' hp
      · exact ih hnd.2 (fun r hr => himp r (List.mem_cons_of_mem _ hr)) ⟨q', hq', hk', hp'⟩

theorem countP_flatMap_eq_one {β γ : Type} (l : List (String × γ)) (f : String × γ → List β)
    (p : β → Bool) (k : String) (hnd : (l.map Prod.fst).Nodup)
    (hzero : ∀ q ∈ l, q.1 ≠ k → (f q).countP p = 0)
    (hone : ∀ q ∈ l, q.1 = k → (f q).countP p = 1)
    (hex : ∃ q ∈ l, q.1 = k) : (l.flatMap f).countP p = 1 := by
  induction l with
  | nil => obtain ⟨q, hq, _⟩ := hex; exact absurd hq (List.not_mem_nil _)
  | cons q t ih =>
    rw [List.map_cons, List.nodup_cons] at hnd
    rw [List.flatMap_cons, List.countP_append]
    by_cases hk : q.1 = k
    · rw [hone q (List.mem_cons_self _ _) hk]
      have ht : (t.flatMap f).countP p = 0 := by
        rw [List.countP_eq_zero]
        intro b hb hpb
        obtain ⟨q', hq', hbq'⟩ := List.mem_flatMap.mp hb
        by_cases hk' : q'.1 = k
        · exact hnd.1 (List.mem_map.mpr ⟨q', hq', by rw [hk', hk]⟩)
        · have := hzero q' (List.mem_cons_of_mem _ hq') hk'
          rw [List.countP_eq_zero] at this
          exact this b hbq' hpb
      rw [ht]
    · rw [hzero q (List.mem_cons_self _ _) hk]
      obtain ⟨q', hq', hk'⟩ := hex
      rcases List.mem_cons.mp hq' with rfl | hq'
      · exact absurd hk' hk
      · rw [Nat.zero_add]
        exact ih hnd.2 (fun r hr => hzero r (List.mem_cons_of_mem _ hr))
          (fun r hr => hone r (List.mem_cons_of_mem _ hr)) ⟨q', hq', hk'⟩

/-! ### Pipeline lemmas -/

theorem by_name_group_eq {files : List FileRecord} {k : String} {g : List IRec}
    (h : (k, g) ∈ by_name files) :
    g = files.enum.filter (fun p => nameKey p == k) :=
  group_eq_filter_of_mem_groupKeyed h

theorem mem_candidates {files : List FileRecord} {k : String} {g : List IRec}
    (h : (k, g) ∈ candidates files) :
    (k, g) ∈ by_name files ∧ 2 ≤ irootsCount g := by
  have := List.mem_filter.mp h
  exact ⟨this.1, by simpa using this.2⟩

theorem candidates_keys_nodup (files : List FileRecord) :
    ((candidates files).map Prod.fst).Nodup :=
  List.Nodup.sublist (List.Sublist.map Prod.fst (List.filter_sublist _))
    (groupKeyed_keys_nodup nameKey files.enum)

theorem mem_files_to_hash {files : List FileRecord} {k : String} {g : List IRec}
    (hg : (k, g) ∈ candidates files) {q : IRec} (hq : q ∈ g) :
    q ∈ files_to_hash files := by
  rw [files_to_hash]
  exact List.mem_flatten.mpr ⟨g, List.mem_map.mpr ⟨(k, g), hg, rfl⟩, hq⟩

theorem hashedIdx_full (files : List FileRecord) :
    hashedIdx (files_to_hash files).length files =
      (files_to_hash files).map (fun p => p.1) := by
  rw [hashedIdx, List.take_length]

theorem applyHash_of_mem {content : String → Option String} {files : List FileRecord}
    {k : String} {g : List IRec} (hg : (k, g) ∈ candidates files) {q : IRec} (hq : q ∈ g) :
    applyHash content (hashedIdx (files_to_hash files).length files) q =
      (q.1, hashRec content q.2) := by
  rw [applyHash, if_pos]
  rw [hashedIdx_full]
  exact List.mem_map.mpr ⟨q, mem_files_to_hash hg hq, rfl⟩

theorem hashCandGroups_full (content : String → Option String) (files : List FileRecord) :
    hashCandGroups content (files_to_hash files).length files =
      (candidates files).map
        (fun p => (p.1, p.2.map (fun q => (q.1, hashRec content q.2)))) := by
  rw [hashCandGroups]
  refine List.map_congr_left ?_
  rintro ⟨k, g⟩ hkg
  simp only [Prod.mk.injEq, true_and]
  refine List.map_congr_left ?_
  intro q hq
  exact applyHash_of_mem hkg hq

theorem irootsCount_map_hashpair (content : String → Option String) (g : List IRec) :
    irootsCount (g.map (fun q => (q.1, hashRec content q.2))) = irootsCount g := by
  rw [irootsCount, irootsCount, List.map_map]
  rfl

theorem irootsCount_eq_rootsCount_snd (g : List IRec) :
    irootsCount g = rootsCount (g.map (fun p => p.2)) := by
  rw [irootsCount, rootsCount, List.map_map]
  rfl

theorem map_snd_filter_snd {α β : Type} (p : β → Bool) (l : List (α × β)) :
    (l.filter (fun q => p q.2)).map (fun q => q.2) = (l.map (fun q => q.2)).filter p := by
  induction l with
  | nil => rfl
  | cons x t ih =>
    rw [List.filter_cons, List.map_cons, List.filter_cons]
    by_cases h : p x.2 = true
    · rw [if_pos h, if_pos h, List.map_cons, ih]
    · rw [if_neg h, if_neg h, ih]

theorem by_hash_group_eq {g : List IRec} {d : String} {sub : List IRec}
    (h : (d, sub) ∈ by_hash g) :
    sub = (g.filter (fun p => truthy p.2.sha256)).filter (fun p => digestKey p == d) :=
  group_eq_filter_of_mem_groupKeyed h

theorem mem_of_mem_by_hash_sub {g : List IRec} {d : String} {sub : List IRec}
    (h : (d, sub) ∈ by_hash g) {q : IRec} (hq : q ∈ sub) :
    q ∈ g ∧ truthy q.2.sha256 = true ∧ digestKey q = d := by
  obtain ⟨hmem, hkey⟩ := key_of_mem_group h hq
  have := List.mem_filter.mp hmem
  exact ⟨this.1, this.2, hkey⟩

theorem mem_binaryGroupsFor {name : String} {g : List IRec} {grp : DuplicateGroup}
    (h : grp ∈ binaryGroupsFor name g) :
    ∃ d sub, (d, sub) ∈ by_hash g ∧ 2 ≤ irootsCount sub ∧
      grp = ⟨MatchType.BINARY_DUPLICATE, sub.map (fun p => p.2), name, some d⟩ := by
  obtain ⟨⟨d, sub⟩, hmem, hemit⟩ := List.mem_filterMap.mp h
  by_cases hc : 2 ≤ irootsCount sub
  · rw [if_pos hc] at hemit
    exact ⟨d, sub, hmem, hc, (Option.some.injEq _ _ ▸ hemit).symm⟩
  · rw [if_neg hc] at hemit
    exact absurd hemit (by simp)

theorem name_group_is_candidate {files : List FileRecord} {r₁ r₂ : FileRecord}
    (h₁ : r₁ ∈ files) (h₂ : r₂ ∈ files)
    (hname : pyLower r₁.filename = pyLower r₂.filename)
    (hroot : r₁.directory_root ≠ r₂.directory_root) :
    (pyLower r₁.filename,
      files.enum.filter (fun p => nameKey p == pyLower r₁.filename)) ∈ candidates files := by
  obtain ⟨i₁, hi₁⟩ := exists_enum_of_mem h₁
  obtain ⟨i₂, hi₂⟩ := exists_enum_of_mem h₂
  have hby : (pyLower r₁.filename,
      files.enum.filter (fun p => nameKey p == pyLower r₁.filename)) ∈ by_name files :=
    @mem_groupKeyed_of_mem _ nameKey _ _ hi₁
  refine List.mem_filter.mpr ⟨hby, ?_⟩
  have hm₁ : (i₁, r₁) ∈ files.enum.filter (fun p => nameKey p == pyLower r₁.filename) :=
    List.mem_filter.mpr ⟨hi₁, by simp [nameKey]⟩
  have hm₂ : (i₂, r₂) ∈ files.enum.filter (fun p => nameKey p == pyLower r₁.filename) :=
    List.mem_filter.mpr ⟨hi₂, by simp [nameKey, hname]⟩
  have h2 : 2 ≤ irootsCount
      (files.enum.filter (fun p => nameKey p == pyLower r₁.filename)) := by
    refine two_le_dedup_length (a := r₁.directory_root) (b := r₂.directory_root)
      (List.mem_map.mpr ⟨(i₁, r₁), hm₁, rfl⟩) (List.mem_map.mpr ⟨(i₂, r₂), hm₂, rfl⟩) hroot
  simpa using h2

theorem map_snd_filter_getD (d : String) (l : List IRec) :
    (l.filter (fun p => p.2.sha256.getD "" == d)).map (fun p => p.2) =
      (l.map (fun p => p.2)).filter (fun r => r.sha256.getD "" == d) :=
  map_snd_filter_snd (fun r => r.sha256.getD "" == d) l

theorem map_snd_filter_truthy (l : List IRec) :
    (l.filter (fun p => truthy p.2.sha256)).map (fun p => p.2) =
      (l.map (fun p => p.2)).filter (fun r => truthy r.sha256) :=
  map_snd_filter_snd (fun r => truthy r.sha256) l

theorem enumFrom_filter_map_f_snd {α β : Type} (f : α → β) (q : α → Bool) (l : List α)
    (n : Nat) :
    ((l.enumFrom n).filter (fun p => q p.2)).map (fun p => f p.2) = (l.filter q).map f := by
  induction l generalizing n with
  | nil => rfl
  | cons x t ih =>
    rw [List.enumFrom_cons, List.filter_cons, List.filter_cons]
    by_cases h : q x = true
    · rw [if_pos (by simpa using h), if_pos h, List.map_cons, List.map_cons, ih (n + 1)]
    · rw [if_neg (by simpa using h), if_neg h, ih (n + 1)]

theorem hashed_group_map_snd (content : String → Option String) (files : List FileRecord)
    (n : String) :
    ((files.enum.filter (fun p => nameKey p == n)).map
        (fun q => (q.1, hashRec content q.2))).map (fun p => p.2) =
      divFiles content files n := by
  rw [List.map_map]
  have h2 : (files.enum.filter (fun p => nameKey p == n)).map
      ((fun p : IRec => p.2) ∘ (fun q : IRec => (q.1, hashRec content q.2))) =
      (files.enum.filter (fun p => nameKey p == n)).map (fun p => hashRec content p.2) :=
    List.map_congr_left (fun a _ => rfl)
  rw [h2]
  have h1 : files.enum.filter (fun p => nameKey p == n) =
      files.enum.filter (fun p : IRec => pyLower p.2.filename == n) :=
    List.filter_congr (fun a _ => rfl)
  rw [h1]
  exact enumFrom_filter_map_f_snd (fun r => hashRec content r)
    (fun r => pyLower r.filename == n) files 0

theorem candidate_group_map_snd (files : List FileRecord) (k : String) :
    (files.enum.filter (fun p => nameKey p == k)).map (fun p => p.2) =
      files.filter (fun r => pyLower r.filename == k) := by
  have h1 : files.enum.filter (fun p => nameKey p == k) =
      files.enum.filter (fun p : IRec => pyLower p.2.filename == k) :=
    List.filter_congr (fun a _ => rfl)
  rw [h1]
  exact enum_filter_map_snd (fun r => pyLower r.filename == k) files

theorem sub_map_snd_eq_binFiles {content : String → Option String} {files : List FileRecord}
    {n d : String} {sub : List IRec}
    (hsub : (d, sub) ∈ by_hash ((files.enum.filter (fun p => nameKey p == n)).map
      (fun q => (q.1, hashRec content q.2)))) :
    sub.map (fun p => p.2) = binFiles content files n d := by
  rw [by_hash_group_eq hsub]
  have hD : (((files.enum.filter (fun p => nameKey p == n)).map
        (fun q => (q.1, hashRec content q.2))).filter
          (fun p => truthy p.2.sha256)).filter (fun p => digestKey p == d) =
      (((files.enum.filter (fun p => nameKey p == n)).map
        (fun q => (q.1, hashRec content q.2))).filter
          (fun p => truthy p.2.sha256)).filter (fun p => p.2.sha256.getD "" == d) :=
    List.filter_congr (fun a _ => rfl)
  rw [hD]
  rw [map_snd_filter_getD d]
  rw [map_snd_filter_truthy]
  rw [hashed_group_map_snd content files n]
  rfl

theorem find_duplicates_nc_fst (content : String → Option String) (files : List FileRecord) :
    (find_duplicates content (files_to_hash files).length false files).1 =
      (candidates files).flatMap
        (fun p => binaryGroupsFor p.1 (p.2.map (fun q => (q.1, hashRec content q.2)))) := by
  rw [find_duplicates, if_neg (by simp), hashCandGroups_full]
  rw [List.flatMap_map]

theorem find_duplicates_nc_snd (content : String → Option String) (files : List FileRecord) :
    (find_duplicates content (files_to_hash files).length false files).2 =
      (candidates files).filterMap
        (fun p => divergedFor p.1 (p.2.map (fun q => (q.1, hashRec content q.2)))) := by
  rw [find_duplicates, if_neg (by simp), hashCandGroups_full]
  rw [List.filterMap_map]
  rfl

theorem hashRec_filename (content : String → Option String) (r : FileRecord) :
    (hashRec content r).filename = r.filename := rfl

theorem hashRec_root (content : String → Option String) (r : FileRecord) :
    (hashRec content r).directory_root = r.directory_root := rfl

theorem hashRec_sha256 (content : String → Option String) (r : FileRecord) :
    (hashRec content r).sha256 = content r.path := rfl

theorem mem_binFiles {content : String → Option String} {files : List FileRecord}
    {n d : String} {s : FileRecord} (h : s ∈ binFiles content files n d) :
    pyLower s.filename = n ∧ s.sha256 = some d ∧ d ≠ "" ∧
      ∃ r ∈ files, pyLower r.filename = n ∧ s = hashRec content r := by
  rw [binFiles] at h
  have h1 := List.mem_filter.mp h
  have h2 := List.mem_filter.mp h1.1
  obtain ⟨r, hr, hre⟩ := List.mem_map.mp h2.1
  have hrf := List.mem_filter.mp hr
  have hname : pyLower r.filename = n := beq_iff_eq.mp hrf.2
  have hsf : pyLower s.filename = n := by
    rw [← hre, hashRec_filename, hname]
  cases hsha : s.sha256 with
  | none => rw [hsha] at h2; exact absurd h2.2 (by simp [truthy])
  | some x =>
    have hx : x ≠ "" := by
      have := h2.2
      rw [hsha] at this
      simpa [truthy] using this
    have hxd : x = d := by
      have := h1.2
      rw [hsha] at this
      simpa using this
    subst hxd
    exact ⟨hsf, rfl, hx, r, hrf.1, hname, hre.symm⟩

theorem binary_group_shape {content : String → Option String} {files : List FileRecord}
    {grp : DuplicateGroup}
    (h : grp ∈ (find_duplicates content (files_to_hash files).length false files).1) :
    ∃ d, grp.match_type = MatchType.BINARY_DUPLICATE ∧ grp.hash_value = some d ∧
      grp.files = binFiles content files grp.shared_name d ∧
      2 ≤ rootsCount grp.files ∧
      2 ≤ rootsCount (files.filter (fun r => pyLower r.filename == grp.shared_name)) := by
  rw [find_duplicates_nc_fst] at h
  obtain ⟨⟨k, g⟩, hcand, hbin⟩ := List.mem_flatMap.mp h
  obtain ⟨d, sub, hsub, hroots, rfl⟩ := mem_binaryGroupsFor hbin
  obtain ⟨hby, hcroots⟩ := mem_candidates hcand
  have hgeq := by_name_group_eq hby
  rw [hgeq] at hsub
  have hfiles : sub.map (fun p => p.2) = binFiles content files k d :=
    sub_map_snd_eq_binFiles hsub
  refine ⟨d, rfl, rfl, hfiles, ?_, ?_⟩
  · rw [← irootsCount_eq_rootsCount_snd]
    exact hroots
  · have : 2 ≤ rootsCount (g.map (fun p => p.2)) := by
      rw [← irootsCount_eq_rootsCount_snd]
      exact hcroots
    rw [hgeq, candidate_group_map_snd] at this
    exact this

theorem binary_pair_count {content : String → Option String} {files : List FileRecord}
    {r₁ r₂ : FileRecord} {d : String}
    (h₁ : r₁ ∈ files) (h₂ : r₂ ∈ files)
    (hname : pyLower r₁.filename = pyLower r₂.filename)
    (hroot : r₁.directory_root ≠ r₂.directory_root)
    (hc₁ : content r₁.path = some d) (hc₂ : content r₂.path = some d) (hd : d ≠ "") :
    ((find_duplicates content (files_to_hash files).length false files).1.countP
      (fun grp =>
        decide (hashRec content r₁ ∈ grp.files ∧ hashRec content r₂ ∈ grp.files))) = 1 := by
  rw [find_duplicates_nc_fst]
  refine countP_flatMap_eq_one (candidates files) _ _ (pyLower r₁.filename)
    (candidates_keys_nodup files) ?_ ?_
    ⟨_, name_group_is_candidate h₁ h₂ hname hroot, rfl⟩
  · -- a candidate name-group with a different key contributes no such group
    rintro ⟨k', g'⟩ hcand hk'
    rw [List.countP_eq_zero]
    intro grp hgrp hpred
    obtain ⟨d', sub, hsub, _, rfl⟩ := mem_binaryGroupsFor hgrp
    have hmem := (of_decide_eq_true hpred).1
    obtain ⟨q', hq', hq'eq⟩ := List.mem_map.mp hmem
    have hgh := (mem_of_mem_by_hash_sub hsub hq').1
    obtain ⟨q0, hq0, hq0eq⟩ := List.mem_map.mp hgh
    have hkey : nameKey q0 = k' := (key_of_mem_group (mem_candidates hcand).1 hq0).2
    have hfn : r₁.filename = q0.2.filename := by
      have hs : hashRec content r₁ = hashRec content q0.2 := by
        rw [← hq'eq, ← hq0eq]
      have := congrArg FileRecord.filename hs
      rw [hashRec_filename, hashRec_filename] at this
      exact this
    exact hk' (by rw [← hkey, nameKey, ← hfn])
  · -- the name-group of the pair contributes exactly one such group
    rintro ⟨k', g'⟩ hcand hk'
    simp only at hk'
    subst hk'
    have hgeq : g' = files.enum.filter
        (fun p => nameKey p == pyLower r₁.filename) :=
      by_name_group_eq (mem_candidates hcand).1
    rw [binaryGroupsFor, countP_filterMap_getD]
    obtain ⟨i₁, hi₁⟩ := exists_enum_of_mem h₁
    obtain ⟨i₂, hi₂⟩ := exists_enum_of_mem h₂
    have hm₁g : (i₁, r₁) ∈ g' := by
      rw [hgeq]
      exact List.mem_filter.mpr ⟨hi₁, by simp [nameKey]⟩
    have hm₂g : (i₂, r₂) ∈ g' := by
      rw [hgeq]
      exact List.mem_filter.mpr ⟨hi₂, by simp [nameKey, hname]⟩
    have hm₁h : (i₁, hashRec content r₁) ∈
        g'.map (fun q => (q.1, hashRec content q.2)) :=
      List.mem_map.mpr ⟨(i₁, r₁), hm₁g, rfl⟩
    have hm₂h : (i₂, hashRec content r₂) ∈
        g'.map (fun q => (q.1, hashRec content q.2)) :=
      List.mem_map.mpr ⟨(i₂, r₂), hm₂g, rfl⟩
    have htr₁ : truthy (hashRec content r₁).sha256 = true := by
      rw [hashRec_sha256, hc₁]
      show (d != "") = true
      exact bne_iff_ne.mpr hd
    have htr₂ : truthy (hashRec content r₂).sha256 = true := by
      rw [hashRec_sha256, hc₂]
      show (d != "") = true
      exact bne_iff_ne.mpr hd
    have hfm₁ : (i₁, hashRec content r₁) ∈
        (g'.map (fun q => (q.1, hashRec content q.2))).filter
          (fun p => truthy p.2.sha256) :=
      List.mem_filter.mpr ⟨hm₁h, htr₁⟩
    have hfm₂ : (i₂, hashRec content r₂) ∈
        (g'.map (fun q => (q.1, hashRec content q.2))).filter
          (fun p => truthy p.2.sha256) :=
      List.mem_filter.mpr ⟨hm₂h, htr₂⟩
    have hdk₁ : digestKey (i₁, hashRec content r₁) = d := by
      show (content r₁.path).getD "" = d
      rw [hc₁]
      rfl
    have hdk₂ : digestKey (i₂, hashRec content r₂) = d := by
      show (content r₂.path).getD "" = d
      rw [hc₂]
      rfl
    have hG := @mem_groupKeyed_of_mem _ digestKey _ _ hfm₁
    rw [hdk₁] at hG
    refine countP_eq_one_of_keys _ _ d (groupKeyed_keys_nodup _ _) ?_ ?_
    · -- any sub-group producing a group containing the pair has digest d
      rintro ⟨d', sub⟩ hmem hpentry
      by_cases hro : 2 ≤ irootsCount sub
      · rw [if_pos hro] at hpentry
        simp only [Option.map_some, Option.getD_some] at hpentry
        have hmem₁ := (of_decide_eq_true hpentry).1
        obtain ⟨q', hq', hq'eq⟩ := List.mem_map.mp hmem₁
        have hdk := (mem_of_mem_by_hash_sub hmem hq').2.2
        show d' = d
        rw [← hdk]
        show digestKey q' = d
        have : q'.2 = hashRec content r₁ := hq'eq
        show q'.2.sha256.getD "" = d
        rw [this, hashRec_sha256, hc₁]
        rfl
      · rw [if_neg hro] at hpentry
        simp at hpentry
    · -- the digest-d sub-group exists and its group contains the pair
      refine ⟨_, hG, rfl, ?_⟩
      have hm₁S : (i₁, hashRec content r₁) ∈
          ((g'.map (fun q => (q.1, hashRec content q.2))).filter
            (fun p => truthy p.2.sha256)).filter (fun p => digestKey p == d) :=
        List.mem_filter.mpr ⟨hfm₁, beq_iff_eq.mpr hdk₁⟩
      have hm₂S : (i₂, hashRec content r₂) ∈
          ((g'.map (fun q => (q.1, hashRec content q.2))).filter
            (fun p => truthy p.2.sha256)).filter (fun p => digestKey p == d) :=
        List.mem_filter.mpr ⟨hfm₂, beq_iff_eq.mpr hdk₂⟩
      have hroots : 2 ≤ irootsCount
          (((g'.map (fun q => (q.1, hashRec content q.2))).filter
            (fun p => truthy p.2.sha256)).filter (fun p => digestKey p == d)) :=
        two_le_dedup_length (a := r₁.directory_root) (b := r₂.directory_root)
          (List.mem_map.mpr ⟨(i₁, hashRec content r₁), hm₁S, rfl⟩)
          (List.mem_map.mpr ⟨(i₂, hashRec content r₂), hm₂S, rfl⟩) hroot
      rw [if_pos hroots]
      simp only [Option.map_some, Option.getD_some]
      refine decide_eq_true ⟨?_, ?_⟩
      · exact List.mem_map.mpr ⟨(i₁, hashRec content r₁), hm₁S, rfl⟩
      · exact List.mem_map.mpr ⟨(i₂, hashRec content r₂), hm₂S, rfl⟩

theorem diverged_group_shape {content : String → Option String} {files : List FileRecord}
    {grp : DuplicateGroup}
    (h : grp ∈ (find_duplicates content (files_to_hash files).length false files).2) :
    grp.match_type = MatchType.DIVERGED ∧ grp.hash_value = none ∧
      grp.files = divFiles content files grp.shared_name := by
  rw [find_duplicates_nc_snd] at h
  obtain ⟨⟨k, g⟩, hcand, hemit⟩ := List.mem_filterMap.mp h
  rw [divergedFor] at hemit
  by_cases hc : 2 ≤ (distinctDigests (g.map (fun q => (q.1, hashRec content q.2)))).length
  · rw [if_pos hc] at hemit
    obtain rfl := Option.some.inj hemit
    refine ⟨rfl, rfl, ?_⟩
    have hgeq := by_name_group_eq (mem_candidates hcand).1
    show (g.map (fun q => (q.1, hashRec content q.2))).map (fun p => p.2) =
      divFiles content files k
    rw [hgeq]
    exact hashed_group_map_snd content files k
  · rw [if_neg hc] at hemit
    exact absurd hemit (by simp)

/-! ### The claims -/

/-- Claim C2: in a run of `find_duplicates` without cancellation, every
pair of records with identical non-absent digest, differing directory
roots and equal case-insensitive filename appears together in exactly
one BINARY_DUPLICATE group; each emitted group consists exactly of the
members of one digest sub-group of a surviving name-group spanning at
least two roots, tagged with the shared lowercase filename and shared
digest; and no record with an absent (or empty) digest is ever a member
of a BINARY_DUPLICATE group. -/
theorem claim_C2 (content : String → Option String) (files : List FileRecord) :
    (∀ r₁ r₂ d, r₁ ∈ files → r₂ ∈ files →
      pyLower r₁.filename = pyLower r₂.filename →
      r₁.directory_root ≠ r₂.directory_root →
      content r₁.path = some d → content r₂.path = some d → d ≠ "" →
      ((find_duplicates content (files_to_hash files).length false files).1.countP
        (fun grp =>
          decide (hashRec content r₁ ∈ grp.files ∧ hashRec content r₂ ∈ grp.files))) = 1) ∧
    (∀ grp ∈ (find_duplicates content (files_to_hash files).length false files).1,
      ∃ d, grp.match_type = MatchType.BINARY_DUPLICATE ∧ grp.hash_value = some d ∧
        grp.files = binFiles content files grp.shared_name d ∧
        2 ≤ rootsCount grp.files ∧
        2 ≤ rootsCount (files.filter (fun r => pyLower r.filename == grp.shared_name)) ∧
        ∀ s ∈ grp.files, pyLower s.filename = grp.shared_name ∧ s.sha256 = some d) ∧
    (∀ grp ∈ (find_duplicates content (files_to_hash files).length false files).1,
      ∀ s ∈ grp.files, s.sha256 ≠ none ∧ s.sha256 ≠ some "") := by
  refine ⟨fun r₁ r₂ d h₁ h₂ hn hr hc₁ hc₂ hd =>
    binary_pair_count h₁ h₂ hn hr hc₁ hc₂ hd, ?_, ?_⟩
  · intro grp hgrp
    obtain ⟨d, hmt, hhv, hfe, hr1, hr2⟩ := binary_group_shape hgrp
    refine ⟨d, hmt, hhv, hfe, hr1, hr2, ?_⟩
    intro s hs
    rw [hfe] at hs
    have := mem_binFiles hs
    exact ⟨this.1, this.2.1⟩
  · intro grp hgrp s hs
    obtain ⟨d, _, _, hfe, _, _⟩ := binary_group_shape hgrp
    rw [hfe] at hs
    obtain ⟨_, hsha, hd, _⟩ := mem_binFiles hs
    rw [hsha]
    exact ⟨by simp, by simpa using hd⟩

/-- Witness for C2: in the concrete two-root scenario (`Doc.TXT` under
`A`, `doc.txt` under `B`, identical digest) the pair lands in exactly
one BINARY_DUPLICATE group. -/
theorem claim_C2_witness :
    ((find_duplicates sampleContent
        (files_to_hash [sampleA, sampleB]).length false [sampleA, sampleB]).1.countP
      (fun grp =>
        decide (hashRec sampleContent sampleA ∈ grp.files ∧
          hashRec sampleContent sampleB ∈ grp.files))) = 1 :=
  (claim_C2 sampleContent [sampleA, sampleB]).1 sampleA sampleB "h1"
    (by decide) (by decide) (by decide) (by decide) (by decide) (by decide) (by decide)

/-- Claim C3: in a run of `find_duplicates` without cancellation, a
name-group that spans at least two directory roots (witnessed by `r₁`,
`r₂`) and whose members carry at least two distinct non-absent digests
after hashing (witnessed by `t₁`, `t₂`) yields exactly one DIVERGED
group for that name; that group contains all members of the name-group
(its member count equals the number of input records with that
case-insensitive filename), and is tagged with the shared filename and
no digest. -/
theorem claim_C3 (content : String → Option String) (files : List FileRecord)
    (r₁ r₂ t₁ t₂ : FileRecord) (d₁ d₂ : String)
    (h₁ : r₁ ∈ files) (h₂ : r₂ ∈ files)
    (hname : pyLower r₁.filename = pyLower r₂.filename)
    (hroot : r₁.directory_root ≠ r₂.directory_root)
    (ht₁ : t₁ ∈ files) (ht₂ : t₂ ∈ files)
    (hn₁ : pyLower t₁.filename = pyLower r₁.filename)
    (hn₂ : pyLower t₂.filename = pyLower r₁.filename)
    (hc₁ : content t₁.path = some d₁) (hc₂ : content t₂.path = some d₂)
    (hd₁ : d₁ ≠ "") (hd₂ : d₂ ≠ "") (hdd : d₁ ≠ d₂) :
    ((find_duplicates content (files_to_hash files).length false files).2.countP
      (fun grp => grp.shared_name == pyLower r₁.filename)) = 1 ∧
    ∀ grp ∈ (find_duplicates content (files_to_hash files).length false files).2,
      grp.shared_name = pyLower r₁.filename →
        grp.match_type = MatchType.DIVERGED ∧ grp.hash_value = none ∧
        grp.files = divFiles content files (pyLower r₁.filename) ∧
        grp.files.length =
          (files.filter (fun r => pyLower r.filename == pyLower r₁.filename)).length := by
  constructor
  · rw [find_duplicates_nc_snd, countP_filterMap_getD]
    refine countP_eq_one_of_keys _ _ (pyLower r₁.filename)
      (candidates_keys_nodup files) ?_ ?_
    · rintro ⟨k', g'⟩ hmem hpred
      rw [divergedFor] at hpred
      by_cases hc : 2 ≤ (distinctDigests
          (g'.map (fun q => (q.1, hashRec content q.2)))).length
      · rw [if_pos hc] at hpred
        simp only [Option.map_some, Option.getD_some] at hpred
        exact beq_iff_eq.mp hpred
      · rw [if_neg hc] at hpred
        simp at hpred
    · refine ⟨(pyLower r₁.filename,
        files.enum.filter (fun p => nameKey p == pyLower r₁.filename)),
        name_group_is_candidate h₁ h₂ hname hroot, rfl, ?_⟩
      obtain ⟨j₁, hj₁⟩ := exists_enum_of_mem ht₁
      obtain ⟨j₂, hj₂⟩ := exists_enum_of_mem ht₂
      have hm₁g : (j₁, t₁) ∈ files.enum.filter
          (fun p => nameKey p == pyLower r₁.filename) :=
        List.mem_filter.mpr ⟨hj₁, by simp [nameKey, hn₁]⟩
      have hm₂g : (j₂, t₂) ∈ files.enum.filter
          (fun p => nameKey p == pyLower r₁.filename) :=
        List.mem_filter.mpr ⟨hj₂, by simp [nameKey, hn₂]⟩
      have hm₁h : (j₁, hashRec content t₁) ∈
          (files.enum.filter (fun p => nameKey p == pyLower r₁.filename)).map
            (fun q => (q.1, hashRec content q.2)) :=
        List.mem_map.mpr ⟨(j₁, t₁), hm₁g, rfl⟩
      have hm₂h : (j₂, hashRec content t₂) ∈
          (files.enum.filter (fun p => nameKey p == pyLower r₁.filename)).map
            (fun q => (q.1, hashRec content q.2)) :=
        List.mem_map.mpr ⟨(j₂, t₂), hm₂g, rfl⟩
      have htr₁ : truthy (hashRec content t₁).sha256 = true := by
        rw [hashRec_sha256, hc₁]
        show (d₁ != "") = true
        exact bne_iff_ne.mpr hd₁
      have htr₂ : truthy (hashRec content t₂).sha256 = true := by
        rw [hashRec_sha256, hc₂]
        show (d₂ != "") = true
        exact bne_iff_ne.mpr hd₂
      have hd₁m : d₁ ∈ ((((files.enum.filter
          (fun p => nameKey p == pyLower r₁.filename)).map
            (fun q => (q.1, hashRec content q.2))).filter
              (fun p => truthy p.2.sha256)).map (fun p => p.2.sha256.getD "")) :=
        List.mem_map.mpr ⟨(j₁, hashRec content t₁),
          List.mem_filter.mpr ⟨hm₁h, htr₁⟩, by
            show (hashRec content t₁).sha256.getD "" = d₁
            rw [hashRec_sha256, hc₁]
            rfl⟩
      have hd₂m : d₂ ∈ ((((files.enum.filter
          (fun p => nameKey p == pyLower r₁.filename)).map
            (fun q => (q.1, hashRec content q.2))).filter
              (fun p => truthy p.2.sha256)).map (fun p => p.2.sha256.getD "")) :=
        List.mem_map.mpr ⟨(j₂, hashRec content t₂),
          List.mem_filter.mpr ⟨hm₂h, htr₂⟩, by
            show (hashRec content t₂).sha256.getD "" = d₂
            rw [hashRec_sha256, hc₂]
            rfl⟩
      have h2d : 2 ≤ (distinctDigests ((files.enum.filter
          (fun p => nameKey p == pyLower r₁.filename)).map
            (fun q => (q.1, hashRec content q.2)))).length :=
        two_le_dedup_length hd₁m hd₂m hdd
      rw [divergedFor, if_pos h2d]
      simp only [Option.map_some, Option.getD_some]
      exact beq_self_eq_true _
  · intro grp hgrp hsn
    obtain ⟨hmt, hhv, hfe⟩ := diverged_group_shape hgrp
    rw [hsn] at hfe
    refine ⟨hmt, hhv, hfe, ?_⟩
    rw [hfe, divFiles, List.length_map]

/-- Witness for C3: the concrete three-root scenario (`doc.txt` under
`A`, `B`, `C`, with `C` diverging) yields exactly one DIVERGED group for
the name. -/
theorem claim_C3_witness :
    ((find_duplicates sampleContent
        (files_to_hash [sampleA, sampleB, sampleC]).length false
        [sampleA, sampleB, sampleC]).2.countP
      (fun grp => grp.shared_name == pyLower sampleA.filename)) = 1 :=
  (claim_C3 sampleContent [sampleA, sampleB, sampleC] sampleA sampleB sampleA sampleC
    "h1" "h2" (by decide) (by decide) (by decide) (by decide) (by decide) (by decide)
    (by decide) (by decide) (by decide) (by decide) (by decide) (by decide) (by decide)).1

theorem applyHash_fst (content : String → Option String) (hIdx : List Nat) (q : IRec) :
    (applyHash content hIdx q).1 = q.1 := by
  rw [applyHash]
  split
  · rfl
  · rfl

theorem applyHash_snd_cases (content : String → Option String) (hIdx : List Nat) (q : IRec) :
    (applyHash content hIdx q).2 = q.2 ∨
      (applyHash content hIdx q).2 = hashRec content q.2 := by
  rw [applyHash]
  split
  · exact Or.inr rfl
  · exact Or.inl rfl

theorem applyHash_filename (content : String → Option String) (hIdx : List Nat) (q : IRec) :
    (applyHash content hIdx q).2.filename = q.2.filename := by
  rcases applyHash_snd_cases content hIdx q with h | h
  · rw [h]
  · rw [h, hashRec_filename]

theorem output_member_name {content : String → Option String} {budget : Nat} {cb : Bool}
    {files : List FileRecord} {grp : DuplicateGroup}
    (h : grp ∈ (find_duplicates content budget cb files).1 ∨
      grp ∈ (find_duplicates content budget cb files).2) :
    ∃ k g, (k, g) ∈ candidates files ∧ grp.shared_name = k ∧
      ∀ s ∈ grp.files, pyLower s.filename = k := by
  rw [find_duplicates] at h
  by_cases hcb : cb = true
  · rw [if_pos hcb] at h
    rcases h with h | h
    · exact absurd h (List.not_mem_nil _)
    · exact absurd h (List.not_mem_nil _)
  · rw [if_neg hcb] at h
    rcases h with h | h
    · obtain ⟨⟨k, gh⟩, hent, hbin⟩ := List.mem_flatMap.mp h
      rw [hashCandGroups] at hent
      obtain ⟨⟨k0, g⟩, hcand, hent'⟩ := List.mem_map.mp hent
      obtain ⟨hk, hg⟩ := Prod.mk.injEq _ _ _ _ ▸ hent'
      subst hk
      obtain ⟨d, sub, hsub, _, rfl⟩ := mem_binaryGroupsFor hbin
      refine ⟨k0, g, hcand, rfl, ?_⟩
      intro s hs
      obtain ⟨q', hq', rfl⟩ := List.mem_map.mp hs
      have hqg := (mem_of_mem_by_hash_sub hsub hq').1
      rw [← hg] at hqg
      obtain ⟨q0, hq0, rfl⟩ := List.mem_map.mp hqg
      have hkey : nameKey q0 = k0 :=
        (key_of_mem_group (mem_candidates hcand).1 hq0).2
      rw [← hkey, nameKey]
      rw [applyHash_filename]
    · obtain ⟨⟨k, gh⟩, hent, hdiv⟩ := List.mem_filterMap.mp h
      rw [hashCandGroups] at hent
      obtain ⟨⟨k0, g⟩, hcand, hent'⟩ := List.mem_map.mp hent
      obtain ⟨hk, hg⟩ := Prod.mk.injEq _ _ _ _ ▸ hent'
      subst hk
      rw [divergedFor] at hdiv
      by_cases hc : 2 ≤ (distinctDigests gh).length
      · rw [if_pos hc] at hdiv
        obtain rfl := Option.some.inj hdiv
        refine ⟨k0, g, hcand, rfl, ?_⟩
        intro s hs
        obtain ⟨q', hq', rfl⟩ := List.mem_map.mp hs
        rw [← hg] at hq'
        obtain ⟨q0, hq0, rfl⟩ := List.mem_map.mp hq'
        have hkey : nameKey q0 = k0 :=
          (key_of_mem_group (mem_candidates hcand).1 hq0).2
        rw [← hkey, nameKey]
        rw [applyHash_filename]
      · rw [if_neg hc] at hdiv
        exact absurd hdiv (by simp)

theorem candidate_key_multi_root {files : List FileRecord} {k : String} {g : List IRec}
    (hc : (k, g) ∈ candidates files) :
    2 ≤ rootsCount (files.filter (fun r => pyLower r.filename == k)) := by
  obtain ⟨hby, hroots⟩ := mem_candidates hc
  have hgeq := by_name_group_eq hby
  have : 2 ≤ rootsCount (g.map (fun p => p.2)) := by
    rw [← irootsCount_eq_rootsCount_snd]
    exact hroots
  rw [hgeq, candidate_group_map_snd] at this
  exact this

/-- Claim C4: a case-insensitive name-group confined to a single
directory root (fewer than two distinct roots among the records with
that lowercased filename) contributes no record to the hashing worklist
(`files_to_hash`, the list handed to `hash_candidates`), and no record
of it appears in any BINARY_DUPLICATE or DIVERGED group returned by
`find_duplicates`, under any hashing budget and cancellation outcome. -/
theorem claim_C4 (content : String → Option String) (budget : Nat) (cb : Bool)
    (files : List FileRecord) (n : String)
    (hsingle : rootsCount (files.filter (fun r => pyLower r.filename == n)) < 2) :
    (∀ q ∈ files_to_hash files, pyLower q.2.filename ≠ n) ∧
    (∀ grp ∈ (find_duplicates content budget cb files).1,
      ∀ s ∈ grp.files, pyLower s.filename ≠ n) ∧
    (∀ grp ∈ (find_duplicates content budget cb files).2,
      ∀ s ∈ grp.files, pyLower s.filename ≠ n) := by
  have hkey : ∀ k g, (k, g) ∈ candidates files → k ≠ n := by
    intro k g hc hkn
    subst hkn
    exact absurd (candidate_key_multi_root hc) (by omega)
  refine ⟨?_, ?_, ?_⟩
  · intro q hq
    rw [files_to_hash] at hq
    obtain ⟨l, hl, hql⟩ := List.mem_flatten.mp hq
    obtain ⟨⟨k, g⟩, hcand, rfl⟩ := List.mem_map.mp hl
    have hqk := (key_of_mem_group (mem_candidates hcand).1 hql).2
    show nameKey q ≠ n
    rw [hqk]
    exact hkey _ _ hcand
  · intro grp hgrp s hs
    obtain ⟨k, g, hcand, _, hmem⟩ := output_member_name (Or.inl hgrp)
    rw [hmem s hs]
    exact hkey _ _ hcand
  · intro grp hgrp s hs
    obtain ⟨k, g, hcand, _, hmem⟩ := output_member_name (Or.inr hgrp)
    rw [hmem s hs]
    exact hkey _ _ hcand

/-- Witness for C4: with `notes.txt` present only under root `A`, no
record of that name is hashed or appears in any output group. -/
theorem claim_C4_witness :
    (∀ q ∈ files_to_hash [sampleA, sampleB, sampleE],
      pyLower q.2.filename ≠ "notes.txt") ∧
    (∀ grp ∈ (find_duplicates sampleContent 3 false [sampleA, sampleB, sampleE]).1,
      ∀ s ∈ grp.files, pyLower s.filename ≠ "notes.txt") ∧
    (∀ grp ∈ (find_duplicates sampleContent 3 false [sampleA, sampleB, sampleE]).2,
      ∀ s ∈ grp.files, pyLower s.filename ≠ "notes.txt") :=
  claim_C4 sampleContent 3 false [sampleA, sampleB, sampleE] "notes.txt" (by decide)

/-- Claim C5: if the cancellation predicate reads true at the check
between hashing and classification (`analyzer.py` lines 43-44),
`find_duplicates` returns two empty lists, whatever prefix of the
candidates had already been hashed (any `budget`). -/
theorem claim_C5 (content : String → Option String) (budget : Nat)
    (files : List FileRecord) :
    find_duplicates content budget true files = ([], []) := by
  rw [find_duplicates, if_pos rfl]

/-- Claim C6: for a group with `n` members each of size `s`,
`wasted_bytes` is `(n-1)*s` when the classification is BINARY_DUPLICATE
(computed as size-of-first-member times member-count-minus-one) and `0`
when it is DIVERGED. -/
theorem claim_C6 (g : DuplicateGroup) (n s : Nat)
    (hn : g.files.length = n) (hs : ∀ f ∈ g.files, f.size = s) :
    (g.match_type = MatchType.BINARY_DUPLICATE → wasted_bytes g = (n - 1) * s) ∧
    (g.match_type = MatchType.DIVERGED → wasted_bytes g = 0) := by
  obtain ⟨mt, fs, sn, hv⟩ := g
  constructor
  · intro hmt
    simp only at hmt
    subst hmt
    cases fs with
    | nil =>
      simp only [List.length_nil] at hn
      subst hn
      show (0 : Nat) = (0 - 1) * s
      simp
    | cons f t =>
      have hsz : f.size = s := hs f (List.mem_cons_self _ _)
      have hlen : t.length = n - 1 := by
        simp only [List.length_cons] at hn
        omega
      show f.size * t.length = (n - 1) * s
      rw [hsz, hlen, Nat.mul_comm]
  · intro hmt
    simp only at hmt
    subst hmt
    cases fs with
    | nil => rfl
    | cons f t => rfl

/-- Witness for C6: a three-member BINARY_DUPLICATE group of 4-byte
files wastes `(3-1)*4 = 8` bytes. -/
theorem claim_C6_witness :
    wasted_bytes ⟨MatchType.BINARY_DUPLICATE, [sampleA, sampleB,
      ⟨"C/doc.txt", "C", "doc.txt", "doc.txt", 4, 2, none⟩], "doc.txt", some "h1"⟩ =
      (3 - 1) * 4 :=
  (claim_C6 ⟨MatchType.BINARY_DUPLICATE, [sampleA, sampleB,
      ⟨"C/doc.txt", "C", "doc.txt", "doc.txt", 4, 2, none⟩], "doc.txt", some "h1"⟩
    3 4 (by decide) (by decide)).1 rfl

theorem pyMaxBy_spec (key : FileRecord → Int) (best : FileRecord) (l : List FileRecord) :
    ∃ pre post, best :: l = pre ++ pyMaxBy key best l :: post ∧
      (∀ f ∈ pre, key f < key (pyMaxBy key best l)) ∧
      (∀ f ∈ best :: l, key f ≤ key (pyMaxBy key best l)) := by
  induction l generalizing best with
  | nil =>
    refine ⟨[], [], rfl, by simp, ?_⟩
    intro f hf
    rw [List.mem_singleton.mp hf]
    exact le_refl _
  | cons f fs ih =>
    rw [pyMaxBy]
    by_cases h : key best < key f
    · rw [if_pos h]
      obtain ⟨pre, post, heq, hpre, hall⟩ := ih f
      have hfm : key f ≤ key (pyMaxBy key f fs) := hall f (List.mem_cons_self _ _)
      refine ⟨best :: pre, post, ?_, ?_, ?_⟩
      · rw [List.cons_append, ← heq]
      · intro x hx
        rcases List.mem_cons.mp hx with rfl | hx
        · exact lt_of_lt_of_le h hfm
        · exact hpre x hx
      · intro x hx
        rcases List.mem_cons.mp hx with rfl | hx
        · exact le_of_lt (lt_of_lt_of_le h hfm)
        · exact hall x hx
    · rw [if_neg h]
      have hfb : key f ≤ key best := not_lt.mp h
      obtain ⟨pre, post, heq, hpre, hall⟩ := ih best
      have hbm : key best ≤ key (pyMaxBy key best fs) := hall best (List.mem_cons_self _ _)
      cases pre with
      | nil =>
        simp only [List.nil_append] at heq
        injection heq with hm hpost
        refine ⟨[], f :: fs, ?_, by simp, ?_⟩
        · rw [List.nil_append, ← hm]
        · intro x hx
          rcases List.mem_cons.mp hx with rfl | hx
          · rw [← hm]
          rcases List.mem_cons.mp hx with rfl | hx
          · exact le_trans hfb hbm
          · exact hall x (List.mem_cons_of_mem _ hx)
      | cons p₀ pre₂ =>
        rw [List.cons_append] at heq
        injection heq with hp₀ hfs
        have hp₀m : key p₀ < key (pyMaxBy key best fs) :=
          hpre p₀ (List.mem_cons_self _ _)
        have hkb : key best = key p₀ := congrArg key hp₀
        refine ⟨best :: f :: pre₂, post, ?_, ?_, ?_⟩
        · rw [List.cons_append, List.cons_append, ← hfs]
        · intro x hx
          rcases List.mem_cons.mp hx with rfl | hx
          · rw [hkb]
            exact hp₀m
          rcases List.mem_cons.mp hx with rfl | hx
          · exact lt_of_le_of_lt hfb (by rw [hkb]; exact hp₀m)
          · exact hpre x (List.mem_cons_of_mem _ hx)
        · intro x hx
          rcases List.mem_cons.mp hx with rfl | hx
          · exact hbm
          rcases List.mem_cons.mp hx with rfl | hx
          · exact le_trans hfb hbm
          · exact hall x (List.mem_cons_of_mem _ hx)

theorem pyMinBy_spec (key : FileRecord → Int) (best : FileRecord) (l : List FileRecord) :
    ∃ pre post, best :: l = pre ++ pyMinBy key best l :: post ∧
      (∀ f ∈ pre, key (pyMinBy key best l) < key f) ∧
      (∀ f ∈ best :: l, key (pyMinBy key best l) ≤ key f) := by
  induction l generalizing best with
  | nil =>
    refine ⟨[], [], rfl, by simp, ?_⟩
    intro f hf
    rw [List.mem_singleton.mp hf]
    exact le_refl _
  | cons f fs ih =>
    rw [pyMinBy]
    by_cases h : key f < key best
    · rw [if_pos h]
      obtain ⟨pre, post, heq, hpre, hall⟩ := ih f
      have hfm : key (pyMinBy key f fs) ≤ key f := hall f (List.mem_cons_self _ _)
      refine ⟨best :: pre, post, ?_, ?_, ?_⟩
      · rw [List.cons_append, ← heq]
      · intro x hx
        rcases List.mem_cons.mp hx with rfl | hx
        · exact lt_of_le_of_lt hfm h
        · exact hpre x hx
      · intro x hx
        rcases List.mem_cons.mp hx with rfl | hx
        · exact le_of_lt (lt_of_le_of_lt hfm h)
        · exact hall x hx
    · rw [if_neg h]
      have hfb : key best ≤ key f := not_lt.mp h
      obtain ⟨pre, post, heq, hpre, hall⟩ := ih best
      have hbm : key (pyMinBy key best fs) ≤ key best := hall best (List.mem_cons_self _ _)
      cases pre with
      | nil =>
        simp only [List.nil_append] at heq
        injection heq with hm hpost
        refine ⟨[], f :: fs, ?_, by simp, ?_⟩
        · rw [List.nil_append, ← hm]
        · intro x hx
          rcases List.mem_cons.mp hx with rfl | hx
          · rw [← hm]
          rcases List.mem_cons.mp hx with rfl | hx
          · exact le_trans hbm hfb
          · exact hall x (List.mem_cons_of_mem _ hx)
      | cons p₀ pre₂ =>
        rw [List.cons_append] at heq
        injection heq with hp₀ hfs
        have hp₀m : key (pyMinBy key best fs) < key p₀ :=
          hpre p₀ (List.mem_cons_self _ _)
        have hkb : key best = key p₀ := congrArg key hp₀
        refine ⟨best :: f :: pre₂, post, ?_, ?_, ?_⟩
        · rw [List.cons_append, List.cons_append, ← hfs]
        · intro x hx
          rcases List.mem_cons.mp hx with rfl | hx
          · rw [hkb]
            exact hp₀m
          rcases List.mem_cons.mp hx with rfl | hx
          · exact lt_of_lt_of_le (by rw [hkb]; exact hp₀m) hfb
          · exact hpre x (List.mem_cons_of_mem _ hx)
        · intro x hx
          rcases List.mem_cons.mp hx with rfl | hx
          · exact hbm
          rcases List.mem_cons.mp hx with rfl | hx
          · exact le_trans hbm hfb
          · exact hall x (List.mem_cons_of_mem _ hx)

/-- Claim C7: on a non-empty group, `newest_file` returns the member
with the maximum modified timestamp, ties broken by first occurrence
(every member strictly before it in the list is strictly older), and
`oldest_file` symmetrically returns the first member attaining the
minimum. -/
theorem claim_C7 (g : DuplicateGroup) (hne : g.files ≠ []) :
    (∃ r pre post, newest_file g = some r ∧ g.files = pre ++ r :: post ∧
      (∀ f ∈ pre, f.modified < r.modified) ∧
      (∀ f ∈ g.files, f.modified ≤ r.modified)) ∧
    (∃ r pre post, oldest_file g = some r ∧ g.files = pre ++ r :: post ∧
      (∀ f ∈ pre, r.modified < f.modified) ∧
      (∀ f ∈ g.files, r.modified ≤ f.modified)) := by
  obtain ⟨mt, fs, sn, hv⟩ := g
  cases fs with
  | nil => exact absurd rfl hne
  | cons f t =>
    constructor
    · obtain ⟨pre, post, heq, hpre, hall⟩ := pyMaxBy_spec (fun r => r.modified) f t
      exact ⟨pyMaxBy (fun r => r.modified) f t, pre, post, rfl, heq, hpre, hall⟩
    · obtain ⟨pre, post, heq, hpre, hall⟩ := pyMinBy_spec (fun r => r.modified) f t
      exact ⟨pyMinBy (fun r => r.modified) f t, pre, post, rfl, heq, hpre, hall⟩

/-- Witness for C7: on the concrete group `[sampleA, sampleC, sampleB]`
(modified times 0, 2, 5) the newest member is `sampleB` and the oldest
is `sampleA`. -/
theorem claim_C7_witness :
    newest_file ⟨MatchType.DIVERGED, [sampleA, sampleC, sampleB], "doc.txt", none⟩ =
      some sampleB ∧
    oldest_file ⟨MatchType.DIVERGED, [sampleA, sampleC, sampleB], "doc.txt", none⟩ =
      some sampleA := by
  obtain ⟨hmax, hmin⟩ :=
    claim_C7 ⟨MatchType.DIVERGED, [sampleA, sampleC, sampleB], "doc.txt", none⟩ (by decide)
  obtain ⟨r, pre, post, hr, _⟩ := hmax
  obtain ⟨r', pre', post', hr', _⟩ := hmin
  constructor
  · rw [hr]
    have : r = sampleB := by
      have := hr
      rw [show newest_file ⟨MatchType.DIVERGED, [sampleA, sampleC, sampleB], "doc.txt",
        none⟩ = some sampleB from by decide] at this
      exact (Option.some.inj this).symm
    rw [this]
  · rw [hr']
    have : r' = sampleA := by
      have := hr'
      rw [show oldest_file ⟨MatchType.DIVERGED, [sampleA, sampleC, sampleB], "doc.txt",
        none⟩ = some sampleA from by decide] at this
      exact (Option.some.inj this).symm
    rw [this]

/-- Counterexample to claim C1 as stated: a run whose task returns
normally (here with the null result `none`) while the cancellation flag
is set delivers NO terminal signal at all — `BackgroundTask._run` line
47 guards the completion callback with `not self._cancelled`, so the
null result is not delivered through `on_complete` (nor through
`on_error`). -/
theorem claim_C1_counterexample :
    (backgroundRun (R := Option Nat) (E := Unit) (Except.ok none) true true true).signal =
      Signal.noSignal ∧
    (backgroundRun (R := Option Nat) (E := Unit) (Except.ok none) true true true).signal ≠
      Signal.complete none := by
  constructor
  · rfl
  · decide

/-- Claim C1 amended: with both callbacks supplied, a run delivers at
most one terminal signal and always sets the finished flag: on normal
completion with the cancellation flag unset, `on_complete` fires once
with the result; on an unhandled exception, `on_error` fires once with
the error (regardless of cancellation); and on normal completion with
the cancellation flag set, no callback fires at all (the cancelled
run ends silently; cancellation is still not an error path). -/
theorem claim_C1_amended {R E : Type} (out : Except E R) (c : Bool) :
    (backgroundRun out c true true).finished = true ∧
    (∀ r, out = Except.ok r → c = false →
      (backgroundRun out c true true).signal = Signal.complete r) ∧
    (∀ r, out = Except.ok r → c = true →
      (backgroundRun out c true true).signal = Signal.noSignal) ∧
    (∀ e, out = Except.error e →
      (backgroundRun out c true true).signal = Signal.error e) := by
  refine ⟨?_, ?_, ?_, ?_⟩
  · cases out with
    | ok r => rfl
    | error e => rfl
  · rintro r rfl rfl
    rfl
  · rintro r rfl rfl
    rfl
  · rintro e rfl
    rfl

/-- Witness for the amended C1: an uncancelled successful run delivers
its result through `on_complete`, and an uncancelled failing run
delivers its error through `on_error`. -/
theorem claim_C1_witness :
    (backgroundRun (R := Nat) (E := Unit) (Except.ok 7) false true true).signal =
      Signal.complete 7 ∧
    (backgroundRun (R := Nat) (E := Unit) (Except.error ()) false true true).signal =
      Signal.error () :=
  ⟨(claim_C1_amended (Except.ok 7) false).2.1 7 rfl rfl,
   (claim_C1_amended (Except.error ()) false).2.2.2 () rfl⟩

theorem hash_candidates_failure (content : String → Option String) :
    ∀ (recs : List FileRecord) (budget i : Nat) (r : FileRecord),
      recs.get? i = some r → i < budget → content r.path = none →
      ∃ r', (hash_candidates content budget recs).get? i = some r' ∧
        r'.sha256 = none ∧ r'.path = r.path ∧ r'.filename = r.filename ∧
        r'.size = r.size ∧ r'.modified = r.modified ∧
        r'.directory_root = r.directory_root ∧
        r'.relative_path = r.relative_path := by
  intro recs
  induction recs with
  | nil =>
    intro budget i r hget
    simp at hget
  | cons r₀ rs ih =>
    intro budget i r hget hib hc
    match budget with
    | 0 => omega
    | b + 1 =>
      have hcons : hash_candidates content (b + 1) (r₀ :: rs) =
          hashRec content r₀ :: hash_candidates content b rs := by
        rw [hash_candidates]
      cases i with
      | zero =>
        have hr : r₀ = r := by simpa using hget
        subst hr
        refine ⟨hashRec content r₀, by rw [hcons]; rfl, ?_, rfl, rfl, rfl, rfl, rfl, rfl⟩
        rw [hashRec_sha256, hc]
      | succ j =>
        have hget' : rs.get? j = some r := by simpa using hget
        obtain ⟨r', hr', hprops⟩ := ih b j r hget' (by omega) hc
        refine ⟨r', ?_, hprops⟩
        rw [hcons]
        simpa using hr'

/-- Claim C8: per-file I/O failures never escape. A file whose `stat`
fails (the `statFn` oracle yields `none`) is skipped by `scan_directory`
and appears nowhere in its output; a record whose content cannot be read
at hash time (the `content` oracle yields `none`) comes out of
`hash_candidates` with an absent digest and all other fields intact.
Both functions are total, so neither failure becomes a run-level
failure. -/
theorem claim_C8 :
    (∀ (statFn : String → Option StatInfo) (root : String)
      (walk : List (String × List String)) (dirBudget : Nat) (p : String),
        statFn p = none →
        ∀ rec ∈ scan_directory statFn root walk dirBudget, rec.path ≠ p) ∧
    (∀ (content : String → Option String) (budget : Nat) (recs : List FileRecord)
      (i : Nat) (r : FileRecord), recs.get? i = some r → i < budget →
        content r.path = none →
        ∃ r', (hash_candidates content budget recs).get? i = some r' ∧
          r'.sha256 = none ∧ r'.path = r.path ∧ r'.filename = r.filename ∧
          r'.size = r.size ∧ r'.modified = r.modified ∧
          r'.directory_root = r.directory_root ∧
          r'.relative_path = r.relative_path) := by
  constructor
  · intro statFn root walk dirBudget p hp rec hrec
    rw [scan_directory] at hrec
    obtain ⟨d, hd, hfm⟩ := List.mem_flatMap.mp hrec
    obtain ⟨fn, hfn, hmatch⟩ := List.mem_filterMap.mp hfm
    intro hpath
    cases hstat : statFn (joinPath d.1 fn) with
    | none =>
      rw [hstat] at hmatch
      exact absurd hmatch (by simp)
    | some st =>
      rw [hstat] at hmatch
      have hrec' := Option.some.inj hmatch
      have : rec.path = joinPath d.1 fn := by rw [← hrec']
      rw [this] at hpath
      rw [hpath] at hstat
      rw [hp] at hstat
      exact absurd hstat (by simp)
  · intro content budget recs i r hget hib hc
    exact hash_candidates_failure content recs budget i r hget hib hc

/-- Witness for C8: a concrete scan in which `bad.txt` fails to stat
produces no record for it, and a concrete hash run over an unreadable
file leaves its digest absent. -/
theorem claim_C8_witness :
    (∀ rec ∈ scan_directory
        (fun p => if p = "A/bad.txt" then none else some ⟨5, 7⟩)
        "A" [("A", ["bad.txt", "good.txt"])] 1, rec.path ≠ "A/bad.txt") ∧
    (∃ r', (hash_candidates (fun _ => none) 1 [sampleA]).get? 0 = some r' ∧
      r'.sha256 = none ∧ r'.path = sampleA.path ∧ r'.filename = sampleA.filename ∧
      r'.size = sampleA.size ∧ r'.modified = sampleA.modified ∧
      r'.directory_root = sampleA.directory_root ∧
      r'.relative_path = sampleA.relative_path) :=
  ⟨claim_C8.1 (fun p => if p = "A/bad.txt" then none else some ⟨5, 7⟩)
      "A" [("A", ["bad.txt", "good.txt"])] 1 "A/bad.txt" (by decide),
   claim_C8.2 (fun _ => none) 1 [sampleA] 0 sampleA (by decide) (by decide) (by decide)⟩

theorem enumFrom_get? {α : Type} (l : List α) (n i : Nat) :
    (l.enumFrom n).get? i = (l.get? i).map (fun a => (n + i, a)) := by
  induction l generalizing n i with
  | nil => simp [List.enumFrom]
  | cons x t ih =>
    rw [List.enumFrom_cons]
    cases i with
    | zero =>
      rw [List.get?_cons_zero, List.get?_cons_zero]
      rfl
    | succ j =>
      rw [List.get?_cons_succ, List.get?_cons_succ, ih (n + 1) j]
      cases t.get? j with
      | none => rfl
      | some a =>
        have : n + 1 + j = n + (j + 1) := by omega
        rw [this]

theorem files_to_hash_mem_decomp {files : List FileRecord} {q : IRec}
    (h : q ∈ files_to_hash files) :
    ∃ k g, (k, g) ∈ candidates files ∧ q ∈ g := by
  rw [files_to_hash] at h
  obtain ⟨l, hl, hql⟩ := List.mem_flatten.mp h
  obtain ⟨⟨k, g⟩, hc, rfl⟩ := List.mem_map.mp hl
  exact ⟨k, g, hc, hql⟩

theorem hashed_index_multi_root {budget : Nat}
    {files : List FileRecord} {i : Nat} {r : FileRecord}
    (hget : files.get? i = some r) (hmem : i ∈ hashedIdx budget files) :
    2 ≤ rootsCount (files.filter (fun s => pyLower s.filename == pyLower r.filename)) := by
  rw [hashedIdx] at hmem
  obtain ⟨q, hq, hq1⟩ := List.mem_map.mp hmem
  have hq' : q ∈ files_to_hash files := (List.take_sublist _ _).subset hq
  obtain ⟨k, g, hcand, hqg⟩ := files_to_hash_mem_decomp hq'
  obtain ⟨hqe, hqk⟩ := key_of_mem_group (mem_candidates hcand).1 hqg
  have hqpair : q = (i, q.2) := by
    rw [← hq1]
  rw [hqpair] at hqe
  have hq2 : files.get? i = some q.2 := (mem_enum_iff_get? files i q.2).mp hqe
  have hqr : q.2 = r := by
    rw [hq2] at hget
    exact Option.some.inj hget
  have hk : k = pyLower r.filename := by
    rw [← hqk, hqpair]
    show nameKey (i, q.2) = pyLower r.filename
    rw [nameKey, hqr]
  rw [← hk]
  exact candidate_key_multi_root hcand

/-- Claim C10: `find_duplicates` mutates only the `sha256` field of its
input records, and only of records whose lowercased filename occurs
under at least two distinct directory roots; every other field of every
record, and the digest of every record in a single-root name-group, is
unchanged. `finalRecords` is the per-index state of the input list after
the call, for any hashing budget (cancellation point). -/
theorem claim_C10 (content : String → Option String) (budget : Nat)
    (files : List FileRecord) :
    (finalRecords content budget files).length = files.length ∧
    ∀ i r, files.get? i = some r →
      ∃ r', (finalRecords content budget files).get? i = some r' ∧
        r'.path = r.path ∧ r'.directory_root = r.directory_root ∧
        r'.relative_path = r.relative_path ∧ r'.filename = r.filename ∧
        r'.size = r.size ∧ r'.modified = r.modified ∧
        (r' = r ∨ (r'.sha256 = content r.path ∧
          2 ≤ rootsCount
            (files.filter (fun s => pyLower s.filename == pyLower r.filename)))) ∧
        (rootsCount
            (files.filter (fun s => pyLower s.filename == pyLower r.filename)) < 2 →
          r' = r) := by
  constructor
  · rw [finalRecords, List.length_map, List.enum_length]
  · intro i r hget
    have henum : files.enum.get? i = some (i, r) := by
      rw [List.enum, enumFrom_get? files 0 i, hget]
      simp
    have hfr : (finalRecords content budget files).get? i =
        some ((applyHash content (hashedIdx budget files) (i, r)).2) := by
      rw [finalRecords, List.get?_map, henum]
      rfl
    by_cases hmem : i ∈ hashedIdx budget files
    · refine ⟨hashRec content r, ?_, rfl, rfl, rfl, rfl, rfl, rfl, ?_, ?_⟩
      · rw [hfr]
        rw [applyHash, if_pos hmem]
      · exact Or.inr ⟨rfl, hashed_index_multi_root hget hmem⟩
      · intro hlt
        exact absurd (hashed_index_multi_root hget hmem) (by omega)
    · refine ⟨r, ?_, rfl, rfl, rfl, rfl, rfl, rfl, Or.inl rfl, fun _ => rfl⟩
      rw [hfr]
      rw [applyHash, if_neg hmem]

/-- Witness for C10: at the concrete input `[sampleA, sampleE]` the
record at index 0 keeps all its non-digest fields after the run. -/
theorem claim_C10_witness :
    ∃ r', (finalRecords sampleContent 2 [sampleA, sampleE]).get? 0 = some r' ∧
      r'.path = sampleA.path ∧ r'.directory_root = sampleA.directory_root ∧
      r'.relative_path = sampleA.relative_path ∧ r'.filename = sampleA.filename ∧
      r'.size = sampleA.size ∧ r'.modified = sampleA.modified ∧
      (r' = sampleA ∨ (r'.sha256 = sampleContent sampleA.path ∧
        2 ≤ rootsCount ([sampleA, sampleE].filter
          (fun s => pyLower s.filename == pyLower sampleA.filename)))) ∧
      (rootsCount ([sampleA, sampleE].filter
          (fun s => pyLower s.filename == pyLower sampleA.filename)) < 2 →
        r' = sampleA) :=
  (claim_C10 sampleContent 2 [sampleA, sampleE]).2 0 sampleA (by decide)

theorem filter_map_e_comm {α : Type} (e : α → α) (q : α → Bool)
    (hq : ∀ a, q (e a) = q a) :
    ∀ (xs ys : List α), xs.map e = ys.map e →
      (xs.filter q).map e = (ys.filter q).map e := by
  intro xs
  induction xs with
  | nil =>
    intro ys h
    have hys : ys = [] := List.map_eq_nil_iff.mp (by rw [← h]; rfl)
    rw [hys]
  | cons x xs ih =>
    intro ys h
    cases ys with
    | nil => simp at h
    | cons y ys =>
      rw [List.map_cons, List.map_cons] at h
      injection h with hxy hxs
      rw [List.filter_cons, List.filter_cons]
      have hqxy : q x = q y := by rw [← hq x, ← hq y, hxy]
      by_cases hx : q x = true
      · rw [if_pos hx, if_pos (hqxy ▸ hx), List.map_cons, List.map_cons, hxy, ih ys hxs]
      · rw [if_neg hx, if_neg (by rw [← hqxy]; exact hx), ih ys hxs]

theorem groupKeyed_map_comm {α : Type} (key : α → String) (e : α → α)
    (hkey : ∀ a, key (e a) = key a) (xs ys : List α) (h : xs.map e = ys.map e) :
    (groupKeyed key xs).map (fun p => (p.1, p.2.map e)) =
      (groupKeyed key ys).map (fun p => (p.1, p.2.map e)) := by
  match xs, ys with
  | [], [] => rfl
  | [], y :: ys => simp at h
  | x :: xs, [] => simp at h
  | x :: xs, y :: ys =>
    rw [List.map_cons, List.map_cons] at h
    injection h with hxy hxs
    rw [groupKeyed_cons, groupKeyed_cons, List.map_cons, List.map_cons]
    have hk : key x = key y := by rw [← hkey x, ← hkey y, hxy]
    have hf := filter_map_e_comm e (fun a => key a == key y)
      (fun a => by show (key (e a) == key y) = (key a == key y); rw [hkey]) xs ys hxs
    have ht : (xs.filter (fun a => key a != key x)).map e =
        (ys.filter (fun a => key a != key y)).map e := by
      rw [hk]
      exact filter_map_e_comm e (fun a => key a != key y)
        (fun a => by show (key (e a) != key y) = (key a != key y); rw [hkey]) xs ys hxs
    have htail := groupKeyed_map_comm key e hkey
      (xs.filter (fun a => key a != key x)) (ys.filter (fun a => key a != key y)) ht
    rw [htail]
    show ((key x, (x :: xs.filter (fun a => key a == key x)).map e)) ::
        ((groupKeyed key (ys.filter (fun a => key a != key y))).map
          (fun p => (p.1, p.2.map e))) =
      ((key y, (y :: ys.filter (fun a => key a == key y)).map e)) ::
        ((groupKeyed key (ys.filter (fun a => key a != key y))).map
          (fun p => (p.1, p.2.map e)))
    rw [List.map_cons, List.map_cons, hxy, hk, hf]
termination_by xs.length
decreasing_by
  simpa using Nat.lt_succ_of_le (List.length_filter_le _ xs)

theorem irootsCount_map_erase (g : List IRec) :
    irootsCount (g.map (fun q => (q.1, eraseSha q.2))) = irootsCount g := by
  rw [irootsCount, irootsCount, List.map_map]
  rfl

theorem map_F_filter_iroots (F : String × List IRec → String × List IRec)
    (hF : ∀ p, irootsCount (F p).2 = irootsCount p.2) (l : List (String × List IRec)) :
    (l.filter (fun p => 2 ≤ irootsCount p.2)).map F =
      (l.map F).filter (fun p => 2 ≤ irootsCount p.2) := by
  induction l with
  | nil => rfl
  | cons x t ih =>
    rw [List.filter_cons, List.map_cons, List.filter_cons]
    by_cases hx : 2 ≤ irootsCount x.2
    · rw [if_pos (by simpa using hx), if_pos (by simp only [hF x]; simpa using hx),
        List.map_cons, ih]
    · rw [if_neg (by simpa using hx), if_neg (by simp only [hF x]; simpa using hx), ih]

theorem candidates_map_erase_comm {files files' : List FileRecord}
    (h : files.map eraseSha = files'.map eraseSha) :
    (candidates files).map
        (fun p => (p.1, p.2.map (fun q : IRec => (q.1, eraseSha q.2)))) =
      (candidates files').map
        (fun p => (p.1, p.2.map (fun q : IRec => (q.1, eraseSha q.2)))) := by
  have hE : files.enum.map (fun q : IRec => (q.1, eraseSha q.2)) =
      files'.enum.map (fun q : IRec => (q.1, eraseSha q.2)) := by
    rw [enum_map_pair, enum_map_pair, h]
  have hBN := groupKeyed_map_comm nameKey (fun q : IRec => (q.1, eraseSha q.2))
    (fun a => rfl) files.enum files'.enum hE
  rw [candidates, candidates]
  rw [map_F_filter_iroots _ (fun p => irootsCount_map_erase p.2),
    map_F_filter_iroots _ (fun p => irootsCount_map_erase p.2)]
  rw [show groupKeyed nameKey files.enum = by_name files from rfl] at hBN
  rw [show groupKeyed nameKey files'.enum = by_name files' from rfl] at hBN
  rw [hBN]

theorem candidates_hash_comm (content : String → Option String)
    {files files' : List FileRecord}
    (h : files.map eraseSha = files'.map eraseSha) :
    (candidates files).map
        (fun p => (p.1, p.2.map (fun q : IRec => (q.1, hashRec content q.2)))) =
      (candidates files').map
        (fun p => (p.1, p.2.map (fun q : IRec => (q.1, hashRec content q.2)))) := by
  have e1 : ∀ (l : List (String × List IRec)),
      (l.map (fun p => (p.1, p.2.map (fun q : IRec => (q.1, eraseSha q.2))))).map
        (fun p => (p.1, p.2.map (fun q : IRec => (q.1, hashRec content q.2)))) =
      l.map (fun p => (p.1, p.2.map (fun q : IRec => (q.1, hashRec content q.2)))) := by
    intro l
    rw [List.map_map]
    refine List.map_congr_left ?_
    intro p _
    show (p.1, (p.2.map (fun q : IRec => (q.1, eraseSha q.2))).map
        (fun q : IRec => (q.1, hashRec content q.2))) =
      (p.1, p.2.map (fun q : IRec => (q.1, hashRec content q.2)))
    rw [List.map_map]
    refine congrArg (fun l2 => (p.1, l2)) ?_
    exact List.map_congr_left (fun q _ => rfl)
  rw [← e1 (candidates files), ← e1 (candidates files'), candidates_map_erase_comm h]

/-- Claim C9: determinism over a fixed filesystem. The classification
result of `find_duplicates` (run to completion, no cancellation) depends
only on the filesystem oracle and on the records' non-digest fields:
two input lists that agree after erasing the digest field — in
particular a fresh scan and the record list a previous run left its
digests on — produce identical outputs, the same groups with the same
membership, classification and order. -/
theorem claim_C9 (content : String → Option String) (files files' : List FileRecord)
    (h : files.map eraseSha = files'.map eraseSha) :
    find_duplicates content (files_to_hash files).length false files =
      find_duplicates content (files_to_hash files').length false files' := by
  have hG := candidates_hash_comm content h
  refine Prod.ext_iff.mpr ⟨?_, ?_⟩
  · rw [find_duplicates_nc_fst, find_duplicates_nc_fst]
    calc (candidates files).flatMap
          (fun p => binaryGroupsFor p.1 (p.2.map (fun q => (q.1, hashRec content q.2))))
        = ((candidates files).map
            (fun p => (p.1, p.2.map (fun q : IRec => (q.1, hashRec content q.2))))).flatMap
            (fun p => binaryGroupsFor p.1 p.2) :=
          (List.flatMap_map
            (fun p : String × List IRec =>
              (p.1, p.2.map (fun q : IRec => (q.1, hashRec content q.2))))
            (fun p : String × List IRec => binaryGroupsFor p.1 p.2)
            (candidates files)).symm
      _ = ((candidates files').map
            (fun p => (p.1, p.2.map (fun q : IRec => (q.1, hashRec content q.2))))).flatMap
            (fun p => binaryGroupsFor p.1 p.2) := by rw [hG]
      _ = (candidates files').flatMap
            (fun p => binaryGroupsFor p.1 (p.2.map (fun q => (q.1, hashRec content q.2)))) :=
          List.flatMap_map
            (fun p : String × List IRec =>
              (p.1, p.2.map (fun q : IRec => (q.1, hashRec content q.2))))
            (fun p : String × List IRec => binaryGroupsFor p.1 p.2)
            (candidates files')
  · rw [find_duplicates_nc_snd, find_duplicates_nc_snd]
    calc (candidates files).filterMap
          (fun p => divergedFor p.1 (p.2.map (fun q => (q.1, hashRec content q.2))))
        = ((candidates files).map
            (fun p => (p.1, p.2.map (fun q : IRec => (q.1, hashRec content q.2))))).filterMap
            (fun p => divergedFor p.1 p.2) :=
          (List.filterMap_map
            (fun p : String × List IRec =>
              (p.1, p.2.map (fun q : IRec => (q.1, hashRec content q.2))))
            (fun p : String × List IRec => divergedFor p.1 p.2)
            (candidates files)).symm
      _ = ((candidates files').map
            (fun p => (p.1, p.2.map (fun q : IRec => (q.1, hashRec content q.2))))).filterMap
            (fun p => divergedFor p.1 p.2) := by rw [hG]
      _ = (candidates files').filterMap
            (fun p => divergedFor p.1 (p.2.map (fun q => (q.1, hashRec content q.2)))) :=
          List.filterMap_map
            (fun p : String × List IRec =>
              (p.1, p.2.map (fun q : IRec => (q.1, hashRec content q.2))))
            (fun p : String × List IRec => divergedFor p.1 p.2)
            (candidates files')

/-- Witness for C9: re-running the analyzer over the same two records
after a previous run left stale digests on them yields the same output
as the fresh run. -/
theorem claim_C9_witness :
    find_duplicates sampleContent (files_to_hash [sampleA, sampleB]).length false
        [sampleA, sampleB] =
      find_duplicates sampleContent
        (files_to_hash [⟨"A/doc.txt", "A", "doc.txt", "Doc.TXT", 4, 0, some "stale"⟩,
          ⟨"B/doc.txt", "B", "doc.txt", "doc.txt", 4, 5, some "old"⟩]).length false
        [⟨"A/doc.txt", "A", "doc.txt", "Doc.TXT", 4, 0, some "stale"⟩,
          ⟨"B/doc.txt", "B", "doc.txt", "doc.txt", 4, 5, some "old"⟩] :=
  claim_C9 sampleContent [sampleA, sampleB]
    [⟨"A/doc.txt", "A", "doc.txt", "Doc.TXT", 4, 0, some "stale"⟩,
      ⟨"B/doc.txt", "B", "doc.txt", "doc.txt", 4, 5, some "old"⟩] (by decide)

end DupFinder
